import Mathlib

/-
Verification of the rabe KP-ABE core (YCT14 scheme, policy toolchain, LSSS compiler).

The Rust sources under src/ are shallowly embedded below:
  * src/utils/policy/pest/mod.rs : PolicyType, PolicyValue, serialize_policy
  * src/utils/policy/msp.rs      : AbePolicy, lw, calculate_msp
  * src/schemes/yct14/mod.rs     : Yct14 types, setup, keygen, encrypt, decrypt

Code of the repository that is not under src/ (the pest grammar files backing
parse, and utils/secretsharing: gen_shares_policy, calc_pruned,
calc_coefficients, remove_index) is modelled from the specification, as are the
external collaborators Fr, Gt and the AEAD envelope (spec sections 4.A, 4.B, 6).

Rust panics (unwrap on None, explicit panic) are modelled by Outcome.panic,
recoverable errors (RabeError) by Outcome.err.  Randomness is passed explicitly
as arguments (scalars, or a stream indexed by draw position).
-/

/-- Result of running a piece of Rust code: normal return, returned error
(RabeError), or panic (unwrap failure / explicit panic). -/
inductive Outcome (α : Type) where
  | ok : α → Outcome α
  | err : String → Outcome α
  | panic : String → Outcome α
deriving DecidableEq, Repr

def Outcome.bind {α β : Type} : Outcome α → (α → Outcome β) → Outcome β
  | .ok a, f => f a
  | .err e, _ => .err e
  | .panic m, _ => .panic m

instance : Monad Outcome where
  pure := .ok
  bind := Outcome.bind

/-- Gate kind of a policy node (pest/mod.rs, enum PolicyType). -/
inductive PolicyType where
  | And | Or | Leaf
deriving DecidableEq, Repr

/-- Policy AST (pest/mod.rs, enum PolicyValue): an inner node is
Object (kind, Array children), a leaf is String name. -/
inductive PolicyValue where
  | Object : PolicyType → PolicyValue → PolicyValue
  | Array : List PolicyValue → PolicyValue
  | String : String → PolicyValue

mutual

def PolicyValue.beq : PolicyValue → PolicyValue → Bool
  | .String a, .String b => a == b
  | .Object t v, .Object t' v' => t == t' && PolicyValue.beq v v'
  | .Array vs, .Array ws => PolicyValue.beqL vs ws
  | _, _ => false

def PolicyValue.beqL : List PolicyValue → List PolicyValue → Bool
  | [], [] => true
  | v :: vs, w :: ws => PolicyValue.beq v w && PolicyValue.beqL vs ws
  | _, _ => false

end

mutual

theorem PolicyValue.beq_iff : ∀ a b : PolicyValue, PolicyValue.beq a b = true ↔ a = b
  | .String a, .String b => by simp [PolicyValue.beq]
  | .String _, .Object _ _ => by simp [PolicyValue.beq]
  | .String _, .Array _ => by simp [PolicyValue.beq]
  | .Object _ _, .String _ => by simp [PolicyValue.beq]
  | .Object t v, .Object t' v' => by
      simp [PolicyValue.beq, PolicyValue.beq_iff v v']
  | .Object _ _, .Array _ => by simp [PolicyValue.beq]
  | .Array _, .String _ => by simp [PolicyValue.beq]
  | .Array _, .Object _ _ => by simp [PolicyValue.beq]
  | .Array vs, .Array ws => by
      simp [PolicyValue.beq, PolicyValue.beqL_iff vs ws]

theorem PolicyValue.beqL_iff : ∀ a b : List PolicyValue, PolicyValue.beqL a b = true ↔ a = b
  | [], [] => by simp [PolicyValue.beqL]
  | [], _ :: _ => by simp [PolicyValue.beqL]
  | _ :: _, [] => by simp [PolicyValue.beqL]
  | v :: vs, w :: ws => by
      simp [PolicyValue.beqL, PolicyValue.beq_iff v w, PolicyValue.beqL_iff vs ws]

end

instance : DecidableEq PolicyValue :=
  fun a b => decidable_of_iff _ (PolicyValue.beq_iff a b)

/-- Policy language selector (pest/mod.rs, enum PolicyLanguage). -/
inductive PolicyLanguage where
  | JsonPolicy | HumanPolicy
deriving DecidableEq, Repr

/- ===================== LSSS / MSP compiler (msp.rs) ===================== -/

/-- Monotone span program (msp.rs, struct AbePolicy): matrix m, row labels pi,
column count c.  Matrix entries are the i8 constants ZERO / PLUS / MINUS. -/
structure AbePolicy where
  m : List (List Int)
  pi : List String
  c : Nat
deriving DecidableEq, Repr

/-- Vec::resize(n, 0): truncate to n, or right-pad with zeros up to n. -/
def resize (v : List Int) (n : Nat) : List Int :=
  v.take n ++ List.replicate (n - v.length) 0

mutual

/-- msp.rs, fn lw.  The mutated (msp, bool) pair is returned; panics are
Outcome.panic. -/
def lw (msp : AbePolicy) (p : PolicyValue) (v : List Int) (parent : Option PolicyType) :
    Outcome (Bool × AbePolicy) :=
  match p with
  | .String attr =>
      .ok (true, ⟨v :: msp.m, attr :: msp.pi, msp.c⟩)
  | .Object t obj =>
      lw msp obj v (some t)
  | .Array policies =>
      if policies.length < 2 then
        .panic ("lw: policy with just a single attribute is not allowed")
      else
        match parent with
        | some .Or => lwOrFold msp policies v
        | some .And =>
            match policies with
            | [p0, p1] =>
                let vRight := resize v msp.c ++ [1]
                let vLeft := List.replicate msp.c (0 : Int) ++ [-1]
                let msp1 : AbePolicy := ⟨msp.m, msp.pi, msp.c + 1⟩
                (lw msp1 p0 vRight (some .And)).bind fun r0 =>
                  if r0.1 then lw r0.2 p1 vLeft (some .And)
                  else .ok (false, r0.2)
            | _ => .panic ("lw: Invalid policy. Number of arguments under AND != 2")
        | some .Leaf => .ok (false, msp)
        | none => .ok (false, msp)

/-- The `for policy in policies { _ret &= lw(...) }` loop of the Or branch:
every child is processed (no short-circuit), the booleans are and-ed. -/
def lwOrFold (msp : AbePolicy) (policies : List PolicyValue) (v : List Int) :
    Outcome (Bool × AbePolicy) :=
  match policies with
  | [] => .ok (true, msp)
  | p :: rest =>
      (lw msp p v (some .Or)).bind fun r =>
        (lwOrFold r.2 rest v).bind fun r' =>
          .ok (r.1 && r'.1, r'.2)

end

/-- Byte-lexicographic comparison on char lists, mirroring Rust String Ord
(UTF-8 byte order coincides with code-point order). -/
def charsLe : List Char → List Char → Bool
  | [], _ => true
  | _ :: _, [] => false
  | a :: as, b :: bs =>
      if a.val.toNat < b.val.toNat then true
      else if b.val.toNat < a.val.toNat then false
      else charsLe as bs

def strLe (a b : String) : Bool := charsLe a.data b.data

/-- Order on (label, row) pairs used to jointly sort pi and m by pi. -/
def rowLe (x y : String × List Int) : Prop := strLe x.1 y.1 = true

instance : DecidableRel rowLe := fun _a _b => inferInstanceAs (Decidable (_ = true))

theorem charsLe_total : ∀ a b : List Char, charsLe a b = true ∨ charsLe b a = true := by
  intro a
  induction a with
  | nil => intro b; left; rfl
  | cons x xs ih =>
      intro b
      cases b with
      | nil => right; rfl
      | cons y ys =>
          by_cases h1 : x.val.toNat < y.val.toNat
          · left; simp [charsLe, h1]
          · by_cases h2 : y.val.toNat < x.val.toNat
            · right; simp [charsLe, h2]
            · rcases ih ys with h | h
              · left; simp [charsLe, h1, h2, h]
              · right; simp [charsLe, h1, h2, h]

theorem charsLe_trans :
    ∀ a b c : List Char, charsLe a b = true → charsLe b c = true → charsLe a c = true := by
  intro a
  induction a with
  | nil => intro b c _ _; rfl
  | cons x xs ih =>
      intro b c hab hbc
      cases b with
      | nil => simp [charsLe] at hab
      | cons y ys =>
          cases c with
          | nil => simp [charsLe] at hbc
          | cons z zs =>
              simp only [charsLe] at hab hbc ⊢
              split_ifs at hab hbc ⊢ with h1 h2 h3 h4 h5 h6 <;>
                first
                  | rfl
                  | omega
                  | (exact ih ys zs hab hbc)

instance : IsTotal (String × List Int) rowLe :=
  ⟨fun a b => charsLe_total a.1.data b.1.data⟩

instance : IsTrans (String × List Int) rowLe :=
  ⟨fun _a _b _c hab hbc => charsLe_trans _ _ _ hab hbc⟩

/-- msp.rs, fn calculate_msp: run lw from v = [PLUS], c = 1, right-pad every
row to width c, then jointly sort (pi, m) by pi ascending (permutation::sort
is a stable sort of pi whose permutation is applied to both slices; a stable
sort of the zipped pairs by label is the same operation). -/
def calculate_msp (p : PolicyValue) : Outcome AbePolicy :=
  match lw ⟨[], [], 1⟩ p [1] none with
  | .ok (true, msp) =>
      let padded := msp.m.map (fun row => resize row msp.c)
      let pairs := List.insertionSort rowLe (msp.pi.zip padded)
      .ok ⟨pairs.map (·.2), pairs.map (·.1), msp.c⟩
  | .ok (false, _) => .err ("lewko waters algorithm failed =(")
  | .err e => .err e
  | .panic m => .panic m

theorem resize_length (v : List Int) (n : Nat) : (resize v n).length = n := by
  simp [resize]
  omega

theorem zip_fst_snd {α β : Type} : ∀ l : List (α × β), (l.map Prod.fst).zip (l.map Prod.snd) = l
  | [] => rfl
  | _ :: xs => by simp [zip_fst_snd xs]

/-- The S5 policy "A" and ("D" or ("B" and "C")) as an AST. -/
def s5Policy : PolicyValue :=
  .Object .And (.Array [ .String ("A"),
    .Object .Or (.Array [ .String ("D"),
      .Object .And (.Array [ .String ("B"), .String ("C") ]) ]) ])

/-- C3 counterexample: compiling the And of two leaves "A", "B" starting from
v = [+1], c = 1, the emitted row for the second child is [0, -1], not
v (zero-extended to length c) followed by -1, which would be [1, -1].  The
second child's vector is NOT derived from v. -/
theorem lw_and_vectors_cex :
    lw ⟨[], [], 1⟩ (.Array [.String ("A"), .String ("B")]) [1] (some .And) =
      .ok (true, ⟨[[0, -1], [1, 1]], ["B", "A"], 2⟩) ∧
    ([0, -1] : List Int) ≠ resize [1] 1 ++ [-1] := by
  constructor
  · rfl
  · decide

/-- C3 (amended): in the Lewko-Waters compilation of an And gate of two leaves
with current vector v and column count c, the first child is processed with
v resized to length c followed by +1, and the second child with the all-zero
vector of length c followed by -1 (rows are emitted by insertion at the front,
so the second child's row comes first). -/
theorem lw_and_children_vectors (a b : String) (v : List Int)
    (m0 : List (List Int)) (pi0 : List String) (c : Nat) :
    lw ⟨m0, pi0, c⟩ (.Array [.String a, .String b]) v (some .And) =
      .ok (true, ⟨(List.replicate c 0 ++ [-1]) :: (resize v c ++ [1]) :: m0,
        b :: a :: pi0, c + 1⟩) := by
  rfl

/-- C7: the policy "A" and ("D" or ("B" and "C")) compiles to pi = [A,B,C,D],
rows (+1,+1,0), (0,-1,+1), (0,0,-1), (0,-1,0) in that order, and c = 3. -/
theorem calculate_msp_s5_shape :
    calculate_msp s5Policy =
      .ok ⟨[[1, 1, 0], [0, -1, 1], [0, 0, -1], [0, -1, 0]], ["A", "B", "C", "D"], 3⟩ := by
  decide

/-- C9: every AbePolicy returned by calculate_msp has all rows of length
exactly c, a label vector pi sorted ascending (byte-lexicographic), and its
(label, row) pairs are a permutation of the pairs produced by the traversal
(rows padded to width c): pi and m are permuted by the same permutation, each
row staying attached to its label. -/
theorem calculate_msp_canonical (p : PolicyValue) (msp : AbePolicy)
    (h : calculate_msp p = .ok msp) :
    (∀ row ∈ msp.m, row.length = msp.c) ∧
    List.Sorted (fun a b => strLe a b = true) msp.pi ∧
    (∃ pre : AbePolicy, lw ⟨[], [], 1⟩ p [1] none = .ok (true, pre) ∧ msp.c = pre.c ∧
      (msp.pi.zip msp.m).Perm (pre.pi.zip (pre.m.map (fun row => resize row pre.c)))) := by
  unfold calculate_msp at h
  cases hlw : lw ⟨[], [], 1⟩ p [1] none with
  | ok r =>
      obtain ⟨b, pre⟩ := r
      cases b with
      | true =>
          rw [hlw] at h
          simp only [Outcome.ok.injEq] at h
          subst h
          have hperm : (List.insertionSort rowLe
              (pre.pi.zip (pre.m.map (fun row => resize row pre.c)))).Perm
              (pre.pi.zip (pre.m.map (fun row => resize row pre.c))) :=
            List.perm_insertionSort _ _
          refine ⟨?_, ?_, pre, rfl, rfl, ?_⟩
          · intro row hrow
            simp only [List.mem_map] at hrow
            obtain ⟨pair, hpair, hrow⟩ := hrow
            have hmem := hperm.mem_iff.mp hpair
            have := (List.of_mem_zip hmem).2
            simp only [List.mem_map] at this
            obtain ⟨r0, _, hr0⟩ := this
            subst hrow
            rw [← hr0, resize_length]
          · have hs : List.Sorted rowLe (List.insertionSort rowLe
                (pre.pi.zip (pre.m.map (fun row => resize row pre.c)))) :=
              List.sorted_insertionSort _ _
            exact List.Pairwise.map _ (fun a b hab => hab) hs
          · rw [zip_fst_snd]
            exact hperm
      | false => rw [hlw] at h; simp at h
  | err e => rw [hlw] at h; simp at h
  | panic m => rw [hlw] at h; simp at h

/-- Witness for C9 at the concrete S5 policy. -/
theorem calculate_msp_canonical_witness :
    calculate_msp s5Policy =
      .ok ⟨[[1, 1, 0], [0, -1, 1], [0, 0, -1], [0, -1, 0]], ["A", "B", "C", "D"], 3⟩ ∧
    ((∀ row ∈ (AbePolicy.mk [[1, 1, 0], [0, -1, 1], [0, 0, -1], [0, -1, 0]]
        ["A", "B", "C", "D"] 3).m,
      row.length = 3) ∧
    List.Sorted (fun a b => strLe a b = true) ["A", "B", "C", "D"] ∧
    (∃ pre : AbePolicy, lw ⟨[], [], 1⟩ s5Policy [1] none = .ok (true, pre) ∧ 3 = pre.c ∧
      ((["A", "B", "C", "D"].zip [[1, 1, 0], [0, -1, 1], [0, 0, -1], [0, -1, 0]]).Perm
        (pre.pi.zip (pre.m.map (fun row => resize row pre.c)))))) :=
  ⟨by decide, calculate_msp_canonical s5Policy _ (by decide)⟩

/- ============== Policy serializer (pest/mod.rs, serialize_policy) ==============
   The serializer works over char lists; serialize_policy packs the result into
   a String.  The format! templates of the source are the constant prefixes and
   separators below; the panic in the Human Array-without-parent arm is
   Outcome.panic. -/

def jsonAndPre : List Char := ("\x7b\"name\": \"and\", ").data
def jsonOrPre : List Char := ("\x7b\"name\": \"or\", ").data
def jsonLeafPre : List Char := ("\x7b\"name\": \"").data
def jsonLeafSuf : List Char := ("\"\x7d").data
def jsonChildrenPre : List Char := ("\"children\": [").data
def commaSpace : List Char := (", ").data
def andSep : List Char := (" and ").data
def orSep : List Char := (" or ").data

def rbraceC : Char := '\x7d'
def lbraceC : Char := '\x7b'
def quoteC : Char := '\"'

/-- Vec::join(sep). -/
def joinSep (sep : List Char) : List (List Char) → List Char
  | [] => []
  | [x] => x
  | x :: xs => x ++ sep ++ joinSep sep xs

mutual

def serChars : PolicyValue → PolicyLanguage → Option PolicyType → Outcome (List Char)
  | .Object t obj, .JsonPolicy, _ =>
      match t with
      | .And => (serChars obj .JsonPolicy none).bind fun inner =>
          .ok (jsonAndPre ++ inner ++ [rbraceC])
      | .Or => (serChars obj .JsonPolicy none).bind fun inner =>
          .ok (jsonOrPre ++ inner ++ [rbraceC])
      | .Leaf => serChars obj .JsonPolicy none
  | .Array a, .JsonPolicy, _ =>
      (serList a .JsonPolicy).bind fun parts =>
        .ok (jsonChildrenPre ++ joinSep commaSpace parts ++ [(']')])
  | .String s, .JsonPolicy, _ =>
      .ok (jsonLeafPre ++ s.data ++ jsonLeafSuf)
  | .Object t obj, .HumanPolicy, _ => serChars obj .HumanPolicy (some t)
  | .Array a, .HumanPolicy, parent =>
      (serList a .HumanPolicy).bind fun parts =>
        match parent with
        | some .And => .ok (('(') :: (joinSep andSep parts ++ [(')')]))
        | some .Or => .ok (('(') :: (joinSep orSep parts ++ [(')')]))
        | _ => .panic ("children without parent")
  | .String s, .HumanPolicy, _ => .ok s.data

def serList : List PolicyValue → PolicyLanguage → Outcome (List (List Char))
  | [], _ => .ok []
  | v :: vs, lang =>
      (serChars v lang none).bind fun c =>
        (serList vs lang).bind fun cs => .ok (c :: cs)

end

/-- pest/mod.rs, fn serialize_policy. -/
def serialize_policy (val : PolicyValue) (language : PolicyLanguage)
    (parent : Option PolicyType) : Outcome String :=
  (serChars val language parent).bind fun l => .ok (String.mk l)

/- ===================== Policy parser =====================
   Modelled from the spec: the pest grammar files (json.pest / human.pest and
   their Rule-walking fns) are not under src/; sections 4.A and 6 of the spec
   define the two surface syntaxes.  JSON: objects with a (possibly unquoted)
   name key, optional children list requiring gate name "and"/"or" and arity
   at least 2.  Human: quoted or bareword attribute identifiers, infix
   and / or with and binding tighter, parentheses for grouping.  Whitespace is
   ignored between tokens.  Parse failures are returned errors. -/

def isWsChar (c : Char) : Bool := c = (' ') || c = ('\n') || c = ('\t') || c = ('\r')

def skipWs : List Char → List Char
  | [] => []
  | c :: cs => if isWsChar c then skipWs cs else c :: cs

def isIdentChar (c : Char) : Bool := c.isAlphanum || c = ('_')

/-- Longest identifier prefix and the remainder. -/
def takeIdent : List Char → (List Char × List Char)
  | [] => ([], [])
  | c :: cs =>
      if isIdentChar c then
        let p := takeIdent cs
        (c :: p.1, p.2)
      else ([], c :: cs)

def expectC (c : Char) : List Char → Option (List Char)
  | [] => none
  | d :: rest => if d = c then some rest else none

def stripPrefixCs : List Char → List Char → Option (List Char)
  | [], cs => some cs
  | _ :: _, [] => none
  | p :: ps, c :: cs => if c = p then stripPrefixCs ps cs else none

/-- A JSON key, accepted quoted or unquoted (the accepted dialect). -/
def expectKey (key : List Char) (cs : List Char) : Option (List Char) :=
  match stripPrefixCs (quoteC :: (key ++ [quoteC])) cs with
  | some r => some r
  | none => stripPrefixCs key cs

/-- Characters of a quoted string up to the closing quote, and the remainder
after it. -/
def takeUntilQuote : List Char → Option (List Char × List Char)
  | [] => none
  | c :: cs =>
      if c = quoteC then some ([], cs)
      else (takeUntilQuote cs).map fun p => (c :: p.1, p.2)

def nameKey : List Char := ("name").data
def childrenKey : List Char := ("children").data
def andChars : List Char := ("and").data
def orChars : List Char := ("or").data

set_option maxHeartbeats 1000000 in
mutual

/-- One JSON policy object. -/
def jsonVal : Nat → List Char → Option (PolicyValue × List Char)
  | 0, _ => none
  | fuel + 1, cs =>
      (expectC lbraceC (skipWs cs)).bind fun cs1 =>
      (expectKey nameKey (skipWs cs1)).bind fun cs2 =>
      (expectC (':') (skipWs cs2)).bind fun cs3 =>
      (expectC quoteC (skipWs cs3)).bind fun cs4 =>
      (takeUntilQuote cs4).bind fun p =>
      let nm := p.1
      let cs5 := skipWs p.2
      match expectC (',') cs5 with
      | some cs6 =>
          (expectKey childrenKey (skipWs cs6)).bind fun cs7 =>
          (expectC (':') (skipWs cs7)).bind fun cs8 =>
          (expectC ('[') (skipWs cs8)).bind fun cs9 =>
          (jsonItems fuel cs9).bind fun q =>
          (expectC rbraceC (skipWs q.2)).bind fun cs10 =>
          (if nm = andChars then some PolicyType.And
           else if nm = orChars then some PolicyType.Or
           else none).bind fun gate =>
          if q.1.length < 2 then none
          else some (.Object gate (.Array q.1), cs10)
      | none =>
          (expectC rbraceC cs5).bind fun cs6 =>
          some (.String (String.mk nm), cs6)

/-- Children list: policy (ws ',' policy)* ws ']'. -/
def jsonItems : Nat → List Char → Option (List PolicyValue × List Char)
  | 0, _ => none
  | fuel + 1, cs =>
      (jsonVal fuel cs).bind fun p =>
      let cs1 := skipWs p.2
      match expectC (',') cs1 with
      | some cs2 =>
          (jsonItems fuel cs2).bind fun q => some (p.1 :: q.1, q.2)
      | none =>
          (expectC (']') cs1).bind fun cs2 => some ([p.1], cs2)

end

/-- After an infix keyword there must be a non-identifier character (or the
end), so that barewords starting with "and"/"or" are not cut. -/
def kwBoundary : List Char → Bool
  | [] => true
  | c :: _ => !isIdentChar c

mutual

/-- Human atom: parenthesized expression, quoted identifier, or bareword. -/
def atomH : Nat → List Char → Option (PolicyValue × List Char)
  | 0, _ => none
  | fuel + 1, cs =>
      match skipWs cs with
      | ('(') :: cs1 =>
          (exprH fuel cs1).bind fun p =>
          (expectC (')') (skipWs p.2)).bind fun cs2 =>
          some (p.1, cs2)
      | ('"') :: cs1 =>
          (takeUntilQuote cs1).bind fun p =>
          if p.1.isEmpty then none else some (.String (String.mk p.1), p.2)
      | cs1 =>
          let p := takeIdent cs1
          if p.1.isEmpty then none else some (.String (String.mk p.1), p.2)

/-- Human term: atom ("and" atom)*; a single atom stays bare, two or more
become an And node. -/
def termH : Nat → List Char → Option (PolicyValue × List Char)
  | 0, _ => none
  | fuel + 1, cs =>
      (atomH fuel cs).bind fun p =>
      (termLoopH fuel p.2).bind fun q =>
      some (if q.1.isEmpty then p.1 else .Object .And (.Array (p.1 :: q.1)), q.2)

def termLoopH : Nat → List Char → Option (List PolicyValue × List Char)
  | 0, _ => none
  | fuel + 1, cs =>
      match stripPrefixCs andChars (skipWs cs) with
      | some cs1 =>
          if kwBoundary cs1 then
            (atomH fuel cs1).bind fun p =>
            (termLoopH fuel p.2).bind fun q =>
            some (p.1 :: q.1, q.2)
          else some ([], cs)
      | none => some ([], cs)

/-- Human expression: term ("or" term)*; "and" binds tighter than "or". -/
def exprH : Nat → List Char → Option (PolicyValue × List Char)
  | 0, _ => none
  | fuel + 1, cs =>
      (termH fuel cs).bind fun p =>
      (exprLoopH fuel p.2).bind fun q =>
      some (if q.1.isEmpty then p.1 else .Object .Or (.Array (p.1 :: q.1)), q.2)

def exprLoopH : Nat → List Char → Option (List PolicyValue × List Char)
  | 0, _ => none
  | fuel + 1, cs =>
      match stripPrefixCs orChars (skipWs cs) with
      | some cs1 =>
          if kwBoundary cs1 then
            (termH fuel cs1).bind fun p =>
            (exprLoopH fuel p.2).bind fun q =>
            some (p.1 :: q.1, q.2)
          else some ([], cs)
      | none => some ([], cs)

end

/-- pest/mod.rs, fn parse.  Modelled from the spec (the grammars are not under
src/): the whole input must be consumed up to trailing whitespace; failures
are returned as PolicyParse errors. -/
def parse (policy : String) (language : PolicyLanguage) : Outcome PolicyValue :=
  match language with
  | .JsonPolicy =>
      match jsonVal (3 * policy.data.length + 3) policy.data with
      | some p => if skipWs p.2 = [] then .ok p.1 else .err ("PolicyParse")
      | none => .err ("PolicyParse")
  | .HumanPolicy =>
      match exprH (3 * policy.data.length + 3) policy.data with
      | some p => if skipWs p.2 = [] then .ok p.1 else .err ("PolicyParse")
      | none => .err ("PolicyParse")

/- ===================== External algebra (spec section 6) =====================
   Modelled from the spec: Fr is any prime-order scalar field (here: an
   arbitrary decidable field F); Gt is a multiplicatively written cyclic group
   of order |Fr| with exponentiation by field elements, represented by the
   discrete logarithm of each element with respect to a fixed generator. -/

/-- Modelled from the spec: the external group Gt, represented by discrete
logarithms (Gt is cyclic of order |Fr|, so exponents form F and the group law
is exponent addition). -/
structure Gt (F : Type) where
  dlog : F
deriving DecidableEq

def Gt.one {F : Type} [Field F] : Gt F := ⟨0⟩

def Gt.mul {F : Type} [Field F] (x y : Gt F) : Gt F := ⟨x.dlog + y.dlog⟩

/-- Scalar exponentiation Gt x Fr -> Gt. -/
def Gt.pow {F : Type} [Field F] (x : Gt F) (e : F) : Gt F := ⟨x.dlog * e⟩

/-- Modelled from the spec: Fr inversion, defined for non-zero elements
(rabe_bn Fr::inverse returns None on zero). -/
def inverse {F : Type} [Field F] [DecidableEq F] (x : F) : Option F :=
  if x = 0 then none else some x⁻¹

/-- Modelled from the spec: the AEAD envelope sealed under a Gt-derived key
(section 6: the two calls round-trip; section 7: key mismatch or corruption is
SymmetricFailure). -/
structure SymCt (F : Type) where
  key : Gt F
  msg : List Nat
deriving DecidableEq

def encrypt_symmetric {F : Type} [Field F] (key : Gt F) (plaintext : List Nat) :
    Outcome (SymCt F) :=
  .ok ⟨key, plaintext⟩

def decrypt_symmetric {F : Type} [Field F] [DecidableEq F] (key : Gt F) (ct : SymCt F) :
    Outcome (List Nat) :=
  if key = ct.key then .ok ct.msg else .err ("SymmetricFailure")

/- ===================== Secret sharing (spec section 4.B) =====================
   Modelled from the spec: utils/secretsharing (gen_shares_policy, calc_pruned,
   calc_coefficients, remove_index) is not under src/.  A share label is the
   leaf's attribute name decorated with a uniqueness index assigned by a
   monotone counter in pre-order traversal ("name_<k>"); labels are modelled as
   (name, index) pairs, label_str renders the decorated string, remove_index
   strips the decoration. -/

abbrev Label : Type := String × Nat

def label_str (l : Label) : String := l.1 ++ ("_") ++ Nat.repr l.2

/-- Modelled from the spec: the stripping function yielding the bare name. -/
def remove_index (l : Label) : String := l.1

/-- Horner evaluation of P(X) = c0 + c1 X + ... at x. -/
def polyEval {F : Type} [Field F] : List F → F → F
  | [], _ => 0
  | c :: cs, x => c + x * polyEval cs x

/-- Lagrange recovery coefficient at 0 for child k (0-based) among n children
evaluated at points 1..n: prod over j /= k of (0 - (j+1)) / ((k+1) - (j+1)). -/
def lagCoeff (F : Type) [Field F] (n k : Nat) : F :=
  ∏ j ∈ (Finset.range n).erase k,
    (0 - ((j + 1 : Nat) : F)) / (((k + 1 : Nat) : F) - ((j + 1 : Nat) : F))

mutual

/-- Modelled from the spec (4.B.1): per-gate Shamir sharing.  And of n
children is an (n, n) threshold, Or is a (1, n) threshold; the gate polynomial
has the gate secret as constant term and t-1 random coefficients drawn from
the stream rand at position rpos; child i receives P(i).  Leaves emit their
label (name, ctr) and the counter advances per leaf in traversal order.
Malformed trees (gate with < 2 children, unknown variant) yield none. -/
def gen_shares {F : Type} [Field F] (rand : Nat → F) :
    PolicyValue → F → Nat → Nat → Option (List (Label × F) × Nat × Nat)
  | .String a, s, ctr, rpos => some ([((a, ctr), s)], ctr + 1, rpos)
  | .Object .And (.Array cs), s, ctr, rpos =>
      if 2 ≤ cs.length then
        let t := cs.length
        let coeffs := s :: (List.range (t - 1)).map (fun j => rand (rpos + j))
        gen_shares_children rand cs coeffs 1 ctr (rpos + (t - 1))
      else none
  | .Object .Or (.Array cs), s, ctr, rpos =>
      if 2 ≤ cs.length then gen_shares_children rand cs [s] 1 ctr rpos
      else none
  | _, _, _, _ => none

def gen_shares_children {F : Type} [Field F] (rand : Nat → F) :
    List PolicyValue → List F → Nat → Nat → Nat → Option (List (Label × F) × Nat × Nat)
  | [], _, _, ctr, rpos => some ([], ctr, rpos)
  | c :: rest, coeffs, i, ctr, rpos =>
      (gen_shares rand c (polyEval coeffs ((i : Nat) : F)) ctr rpos).bind fun r1 =>
        (gen_shares_children rand rest coeffs (i + 1) r1.2.1 r1.2.2).bind fun r2 =>
          some (r1.1 ++ r2.1, r2.2)

end

/-- Modelled from the spec: gen_shares_policy(secret, tree) with the counter
and randomness stream starting at 0. -/
def gen_shares_policy {F : Type} [Field F] (rand : Nat → F) (secret : F)
    (p : PolicyValue) : Option (List (Label × F)) :=
  (gen_shares rand p secret 0 0).map (·.1)

mutual

/-- Modelled from the spec (4.B.2): does available satisfy the tree, and if so
a minimum satisfying leaf cover as (bare name, labeled name) pairs.  Leaf:
satisfied iff the name is available.  And: all children, cover is the union.
Or: at least one child, cover of the first satisfied child.  The counter
advances over every leaf (also unsatisfied or unselected ones) so labels agree
with gen_shares and calc_coefficients. -/
def calc_pruned (avail : List String) :
    PolicyValue → Nat → Outcome ((Bool × List (String × Label)) × Nat)
  | .String a, ctr =>
      if a ∈ avail then .ok ((true, [(a, (a, ctr))]), ctr + 1)
      else .ok ((false, []), ctr + 1)
  | .Object .And (.Array cs), ctr =>
      if 2 ≤ cs.length then
        (calc_pruned_children avail cs ctr).bind fun r =>
          .ok ((r.1.all (·.1), (r.1.map (·.2)).flatten), r.2)
      else .err ("Error in calc_pruned: malformed policy")
  | .Object .Or (.Array cs), ctr =>
      if 2 ≤ cs.length then
        (calc_pruned_children avail cs ctr).bind fun r =>
          match r.1.find? (·.1) with
          | some hit => .ok ((true, hit.2), r.2)
          | none => .ok ((false, []), r.2)
      else .err ("Error in calc_pruned: malformed policy")
  | _, _ => .err ("Error in calc_pruned: unknown policy type")

def calc_pruned_children (avail : List String) :
    List PolicyValue → Nat → Outcome (List (Bool × List (String × Label)) × Nat)
  | [], ctr => .ok ([], ctr)
  | c :: rest, ctr =>
      (calc_pruned avail c ctr).bind fun r1 =>
        (calc_pruned_children avail rest r1.2).bind fun r2 =>
          .ok (r1.1 :: r2.1, r2.2)

end

mutual

/-- Modelled from the spec (4.B.3): Lagrange-style recovery coefficients.  The
accumulated coefficient is handed down: each And child i inherits coeff times
the Lagrange factor for i among all n children; each Or child inherits coeff
times 1; a leaf emits (label, accumulated).  The leaf counter matches
gen_shares / calc_pruned. -/
def calc_coefficients {F : Type} [Field F] :
    PolicyValue → F → Nat → Option (List (Label × F) × Nat)
  | .String a, coeff, ctr => some ([((a, ctr), coeff)], ctr + 1)
  | .Object .And (.Array cs), coeff, ctr =>
      if 2 ≤ cs.length then
        calc_coefficients_children
          (fun k => coeff * lagCoeff F cs.length k) cs 0 ctr
      else none
  | .Object .Or (.Array cs), coeff, ctr =>
      if 2 ≤ cs.length then
        calc_coefficients_children (fun _ => coeff * 1) cs 0 ctr
      else none
  | _, _, _ => none

def calc_coefficients_children {F : Type} [Field F] (f : Nat → F) :
    List PolicyValue → Nat → Nat → Option (List (Label × F) × Nat)
  | [], _, ctr => some ([], ctr)
  | c :: rest, k, ctr =>
      (calc_coefficients c (f k) ctr).bind fun r1 =>
        (calc_coefficients_children f rest (k + 1) r1.2).bind fun r2 =>
          some (r1.1 ++ r2.1, r2.2)

end

/- ===================== KP-ABE scheme (yct14/mod.rs) ===================== -/

section Yct14

variable {F : Type} [Field F] [DecidableEq F]

/-- yct14/mod.rs, enum Yct14Type. -/
inductive Yct14Type (F : Type) where
  | Public : Gt F → Yct14Type F
  | Private : F → Yct14Type F
deriving DecidableEq

/-- Yct14Type::public. -/
def Yct14Type.public_ : Yct14Type F → Outcome (Gt F)
  | .Public g => .ok g
  | _ => .err ("no public value (Gt) found")

/-- Yct14Type::private. -/
def Yct14Type.private_ : Yct14Type F → Outcome F
  | .Private fr => .ok fr
  | _ => .err ("no private value (Fr) found")

/-- yct14/mod.rs, struct Yct14Attribute. -/
structure Yct14Attribute (F : Type) where
  name : String
  node : Option (Yct14Type F)
deriving DecidableEq

/-- yct14/mod.rs, struct Yct14AbePublicKey (PK). -/
structure Yct14AbePublicKey (F : Type) where
  g : Gt F
  attributes : List (Yct14Attribute F)
deriving DecidableEq

/-- yct14/mod.rs, struct Yct14AbeMasterKey (MSK). -/
structure Yct14AbeMasterKey (F : Type) where
  s : F
  attributes : List (Yct14Attribute F)
deriving DecidableEq

/-- yct14/mod.rs, struct Yct14AbeSecretKey (SK). -/
structure Yct14AbeSecretKey (F : Type) where
  policy : String × PolicyLanguage
  du : List (Yct14Attribute F)
deriving DecidableEq

/-- yct14/mod.rs, struct Yct14AbeCiphertext (CT).  The AEAD envelope bytes are
the abstract SymCt envelope. -/
structure Yct14AbeCiphertext (F : Type) where
  attributes : List (Yct14Attribute F)
  ct : SymCt F
deriving DecidableEq

/-- Yct14Attribute::new with the sampled scalar si passed explicitly: the
(public, private) pair for one attribute. -/
def Yct14Attribute.new (name : String) (g : Gt F) (si : F) :
    Yct14Attribute F × Yct14Attribute F :=
  (⟨name, some (.Public (g.pow si))⟩, ⟨name, some (.Private si)⟩)

/-- Yct14AbeMasterKey::get_private: first attribute with matching name and a
present node; its private value, or a panic if that node is Public. -/
def Yct14AbeMasterKey.get_private (msk : Yct14AbeMasterKey F) (attrName : String) :
    Outcome F :=
  match (msk.attributes.filter (fun a => a.name == attrName && a.node.isSome)).head? with
  | none => .err (("no private key found for ") ++ attrName)
  | some a =>
      match a.node with
      | some nd =>
          match nd.private_ with
          | .ok v => .ok v
          | .err e => .panic (("no private node value: ") ++ e)
          | .panic m => .panic m
      | none => .panic ("unreachable: filtered on node.is_some")

/-- Yct14AbeSecretKey::get_private: first du entry with matching name; unwrap
of its node (panic when None) and of the private value (panic when Public). -/
def Yct14AbeSecretKey.get_private (sk : Yct14AbeSecretKey F) (attrName : String) :
    Outcome F :=
  match (sk.du.filter (fun a => a.name == attrName)).head? with
  | none => .err (("no private key found for ") ++ attrName)
  | some a =>
      match a.node with
      | some nd =>
          match nd.private_ with
          | .ok v => .ok v
          | .err e => .panic (("no private node value: ") ++ e)
          | .panic m => .panic m
      | none => .panic ("called Option::unwrap on a None value")

/-- Yct14AbeCiphertext::get_public: first attribute entry with matching name;
unwrap of its node and of the public value.  (The source's error string says
"no private key found" here too.) -/
def Yct14AbeCiphertext.get_public (ct : Yct14AbeCiphertext F) (attrName : String) :
    Outcome (Gt F) :=
  match (ct.attributes.filter (fun a => a.name == attrName)).head? with
  | none => .err (("no private key found for ") ++ attrName)
  | some a =>
      match a.node with
      | some nd =>
          match nd.public_ with
          | .ok v => .ok v
          | .err e => .panic (("no public node value: ") ++ e)
          | .panic m => .panic m
      | none => .panic ("called Option::unwrap on a None value")

/-- Yct14Attribute::private_from: look the bare name up in the MSK, invert the
per-attribute scalar (unwrap: panic on zero) and attach share * si^-1. -/
def Yct14Attribute.private_from (input : String × F) (msk : Yct14AbeMasterKey F) :
    Outcome (Yct14Attribute F) :=
  match msk.get_private input.1 with
  | .ok si =>
      match inverse si with
      | some siInv => .ok ⟨input.1, some (.Private (input.2 * siInv))⟩
      | none => .panic ("called Option::unwrap on a None value")
  | .err e => .err e
  | .panic m => .panic m

/-- Yct14Attribute::public_from: first PK attribute with matching name
(nth(0).unwrap(): panic when absent), public node raised to k (panic when the
node is missing or Private). -/
def Yct14Attribute.public_from (name : String) (pk : Yct14AbePublicKey F) (k : F) :
    Outcome (Yct14Attribute F) :=
  match (pk.attributes.filter (fun a => a.name == name)).head? with
  | none => .panic ("called Option::unwrap on a None value")
  | some attrE =>
      match attrE.node with
      | some (.Public pub) => .ok ⟨name, some (.Public (pub.pow k))⟩
      | some (.Private _) => .panic ("attribute has no public node value")
      | none => .panic ("attribute has no public node")

/-- The attribute loop of setup: one (public, private) pair per attribute,
drawing the scalar for position i from the stream sr. -/
def setupPairs (g : Gt F) (sr : Nat → F) :
    List String → Nat → List (Yct14Attribute F × Yct14Attribute F)
  | [], _ => []
  | a :: rest, i => Yct14Attribute.new a g (sr i) :: setupPairs g sr rest (i + 1)

/-- yct14/mod.rs, fn setup, with the sampled master scalar s, generator g and
per-attribute scalar stream sr passed explicitly. -/
def setup (attributes : List String) (s : F) (g : Gt F) (sr : Nat → F) :
    Yct14AbePublicKey F × Yct14AbeMasterKey F :=
  (⟨g.pow s, (setupPairs g sr attributes 0).map (·.1)⟩,
   ⟨s, (setupPairs g sr attributes 0).map (·.2)⟩)

/-- The share loop of keygen: push each successful private_from result,
drop (println) returned errors, propagate panics. -/
def keygenDu (msk : Yct14AbeMasterKey F) :
    List (Label × F) → Outcome (List (Yct14Attribute F))
  | [] => .ok []
  | share :: rest =>
      match Yct14Attribute.private_from (remove_index share.1, share.2) msk with
      | .ok attrE =>
          (keygenDu msk rest).bind fun du => .ok (attrE :: du)
      | .err _ => keygenDu msk rest
      | .panic m => .panic m

/-- yct14/mod.rs, fn keygen, with the share-polynomial randomness stream
passed explicitly. -/
def keygen (msk : Yct14AbeMasterKey F) (policy : String) (language : PolicyLanguage)
    (rand : Nat → F) : Outcome (Yct14AbeSecretKey F) :=
  match parse policy language with
  | .ok pol =>
      match gen_shares_policy rand msk.s pol with
      | some shares =>
          (keygenDu msk shares).bind fun du =>
            .ok ⟨(policy, language), du⟩
      | none => .err ("could not generate shares during keygen()")
  | .err e => .err e
  | .panic m => .panic m

/-- The per-attribute loop of encrypt. -/
def encryptAttrs (pk : Yct14AbePublicKey F) (k : F) :
    List String → Outcome (List (Yct14Attribute F))
  | [] => .ok []
  | a :: rest =>
      (Yct14Attribute.public_from a pk k).bind fun attr =>
        (encryptAttrs pk k rest).bind fun attrs => .ok (attr :: attrs)

/-- yct14/mod.rs, fn encrypt, with the sampled exponent k passed explicitly. -/
def encrypt (pk : Yct14AbePublicKey F) (attributes : List String)
    (plaintext : List Nat) (k : F) : Outcome (Yct14AbeCiphertext F) :=
  if attributes.isEmpty then .err ("attributes empty")
  else if plaintext.isEmpty then .err ("plaintext empty")
  else
    let cs := pk.g.pow k
    (encryptAttrs pk k attributes).bind fun attrs =>
      match encrypt_symmetric cs plaintext with
      | .ok ct => .ok ⟨attrs, ct⟩
      | .err e => .err e
      | .panic m => .panic m

/-- The reconstruction loop of decrypt: for each cover pair (bare, labeled),
z = CT.public(bare) ^ SK.private(bare) (both unwrapped: errors panic), the
coefficient is looked up by the labeled name (unwrapped), and the product
accumulates z ^ coeff. -/
def decryptProd (sk : Yct14AbeSecretKey F) (ct : Yct14AbeCiphertext F)
    (coeff_list : List (Label × F)) :
    List (String × Label) → Gt F → Outcome (Gt F)
  | [], acc => .ok acc
  | attr0 :: rest, acc =>
      match ct.get_public attr0.1 with
      | .err e => .panic e
      | .panic m => .panic m
      | .ok u =>
          match sk.get_private attr0.1 with
          | .err e => .panic e
          | .panic m => .panic m
          | .ok d =>
              match (coeff_list.filter (fun a => a.1 == attr0.2)).head? with
              | none => .panic ("called Option::unwrap on a None value")
              | some coeff =>
                  decryptProd sk ct coeff_list rest (acc.mul ((u.pow d).pow coeff.2))

/-- yct14/mod.rs, fn decrypt. -/
def decrypt (sk : Yct14AbeSecretKey F) (ct : Yct14AbeCiphertext F) :
    Outcome (List Nat) :=
  let attr := ct.attributes.map (·.name)
  match parse sk.policy.1 sk.policy.2 with
  | .ok policy_value =>
      match calc_pruned attr policy_value 0 with
      | .err e => .err e
      | .panic m => .panic m
      | .ok p =>
          if p.1.1 then
            match calc_coefficients policy_value (1 : F) 0 with
            | none => .panic ("called Option::unwrap on a None value")
            | some coeffPair =>
                (decryptProd sk ct coeffPair.1 p.1.2 Gt.one).bind fun prod =>
                  decrypt_symmetric prod ct.ct
          else .err ("Error in decrypt: attributes do not match policy.")
  | .err e => .err e
  | .panic m => .panic m

end Yct14

/- ===================== C10: accessor lookup discipline ===================== -/

theorem head?_filter_eq_find? {α : Type} (p : α → Bool) :
    ∀ l : List α, (l.filter p).head? = l.find? p := by
  intro l
  induction l with
  | nil => rfl
  | cons a l ih =>
      by_cases h : p a
      · simp [List.filter_cons, List.find?_cons, h]
      · simp [List.filter_cons, List.find?_cons, h, ih]

/-- C10: Yct14AbeSecretKey::get_private and Yct14AbeCiphertext::get_public
return the result computed from the first stored entry whose name equals the
query (find? = first match): its private/public value, a panic when that entry
is mistyped or nodeless, and an error when no entry matches.  Later entries
with the same name never influence the result. -/
theorem accessors_first_match {F : Type} [Field F] [DecidableEq F]
    (sk : Yct14AbeSecretKey F) (ct : Yct14AbeCiphertext F) (n : String) :
    (sk.get_private n =
      match sk.du.find? (fun a => a.name == n) with
      | none => .err (("no private key found for ") ++ n)
      | some a =>
          match a.node with
          | some nd =>
              match nd.private_ with
              | .ok v => .ok v
              | .err e => .panic (("no private node value: ") ++ e)
              | .panic m => .panic m
          | none => .panic ("called Option::unwrap on a None value")) ∧
    (ct.get_public n =
      match ct.attributes.find? (fun a => a.name == n) with
      | none => .err (("no private key found for ") ++ n)
      | some a =>
          match a.node with
          | some nd =>
              match nd.public_ with
              | .ok v => .ok v
              | .err e => .panic (("no public node value: ") ++ e)
              | .panic m => .panic m
          | none => .panic ("called Option::unwrap on a None value")) := by
  constructor
  · unfold Yct14AbeSecretKey.get_private
    rw [head?_filter_eq_find?]
  · unfold Yct14AbeCiphertext.get_public
    rw [head?_filter_eq_find?]

/- ===================== Policy satisfaction (spec 4.B.2) ===================== -/

mutual

/-- Modelled from the spec (4.B.2 semantics): a leaf is satisfied iff its name
is available, And iff every child is satisfied, Or iff some child is. -/
def satisfies (avail : List String) : PolicyValue → Bool
  | .String a => decide (a ∈ avail)
  | .Object .And (.Array cs) => satisfiesAll avail cs
  | .Object .Or (.Array cs) => satisfiesAny avail cs
  | _ => false

def satisfiesAll (avail : List String) : List PolicyValue → Bool
  | [] => true
  | c :: cs => satisfies avail c && satisfiesAll avail cs

def satisfiesAny (avail : List String) : List PolicyValue → Bool
  | [] => false
  | c :: cs => satisfies avail c || satisfiesAny avail cs

end

mutual

/-- Tree shapes accepted by the sharing functions: leaves, and And/Or gates
with at least two well-formed children. -/
def wfTree : PolicyValue → Bool
  | .String _ => true
  | .Object .And (.Array cs) => 2 ≤ cs.length && wfList cs
  | .Object .Or (.Array cs) => 2 ≤ cs.length && wfList cs
  | _ => false

def wfList : List PolicyValue → Bool
  | [] => true
  | c :: cs => wfTree c && wfList cs

end

mutual

theorem calc_pruned_sat (avail : List String) :
    ∀ t : PolicyValue, wfTree t = true → ∀ ctr : Nat,
      ∃ cover ctr', calc_pruned avail t ctr = .ok ((satisfies avail t, cover), ctr')
  | .String a, _, ctr => by
      by_cases h : a ∈ avail
      · exact ⟨[(a, (a, ctr))], ctr + 1, by simp [calc_pruned, satisfies, h]⟩
      · exact ⟨[], ctr + 1, by simp [calc_pruned, satisfies, h]⟩
  | .Object .And (.Array cs), hwf, ctr => by
      simp only [wfTree, Bool.and_eq_true, decide_eq_true_eq] at hwf
      obtain ⟨rs, ctr', hrs, hall, _⟩ := calc_pruned_satL avail cs hwf.2 ctr
      refine ⟨(rs.map (·.2)).flatten, ctr', ?_⟩
      simp [calc_pruned, hwf.1, hrs, Outcome.bind, satisfies, hall]
  | .Object .Or (.Array cs), hwf, ctr => by
      simp only [wfTree, Bool.and_eq_true, decide_eq_true_eq] at hwf
      obtain ⟨rs, ctr', hrs, _, hany⟩ := calc_pruned_satL avail cs hwf.2 ctr
      cases hfind : rs.find? (·.1) with
      | none =>
          have hs : satisfiesAny avail cs = false := by
            rw [← hany]
            simp only [List.any_eq_false]
            intro x hx
            simpa using List.find?_eq_none.mp hfind x hx
          exact ⟨[], ctr', by
            simp [calc_pruned, hwf.1, hrs, Outcome.bind, satisfies, hs, hfind]⟩
      | some hit =>
          have : satisfiesAny avail cs = true := by
            rw [← hany]
            simp only [List.any_eq_true]
            exact ⟨hit, List.mem_of_find?_eq_some hfind, List.find?_some hfind⟩
          exact ⟨hit.2, ctr', by simp [calc_pruned, hwf.1, hrs, Outcome.bind, satisfies, this, hfind]⟩

theorem calc_pruned_satL (avail : List String) :
    ∀ cs : List PolicyValue, wfList cs = true → ∀ ctr : Nat,
      ∃ rs ctr', calc_pruned_children avail cs ctr = .ok (rs, ctr') ∧
        (rs.all (·.1) = satisfiesAll avail cs) ∧
        (rs.any (·.1) = satisfiesAny avail cs)
  | [], _, ctr => ⟨[], ctr, rfl, rfl, rfl⟩
  | c :: cs, hwf, ctr => by
      simp only [wfList, Bool.and_eq_true] at hwf
      obtain ⟨cover, ctr1, hc⟩ := calc_pruned_sat avail c hwf.1 ctr
      obtain ⟨rs, ctr2, hrs, hall, hany⟩ := calc_pruned_satL avail cs hwf.2 ctr1
      refine ⟨(satisfies avail c, cover) :: rs, ctr2, ?_, ?_, ?_⟩
      · simp [calc_pruned_children, hc, hrs, Outcome.bind]
      · simp [satisfiesAll, hall]
      · simp [satisfiesAny, hany]

end

/- ===================== C6: policy-mismatch soundness ===================== -/

/-- C6: whenever the secret key's policy parses to a well-formed tree that the
ciphertext's attribute names do not satisfy, decrypt rejects with the
policy-mismatch error and never yields a plaintext. -/
theorem decrypt_policy_mismatch {F : Type} [Field F] [DecidableEq F]
    (sk : Yct14AbeSecretKey F) (ct : Yct14AbeCiphertext F) (tree : PolicyValue)
    (hp : parse sk.policy.1 sk.policy.2 = .ok tree)
    (hwf : wfTree tree = true)
    (hns : satisfies (ct.attributes.map (·.name)) tree = false) :
    decrypt sk ct = .err ("Error in decrypt: attributes do not match policy.") := by
  obtain ⟨cover, ctr', hcp⟩ := calc_pruned_sat (ct.attributes.map (·.name)) tree hwf 0
  simp [decrypt, hp, hcp, hns]

/- =========== Concrete five-element field used for witnesses ===========
   Z/5Z with a tabulated inverse, so that every scheme operation reduces
   inside the kernel. -/

def F5 : Type := Fin 5

instance : DecidableEq F5 := inferInstanceAs (DecidableEq (Fin 5))
instance : Fintype F5 := inferInstanceAs (Fintype (Fin 5))
instance : CommRing F5 := inferInstanceAs (CommRing (Fin 5))

def F5.inv : F5 → F5 := fun a => ((List.getD [0, 1, 3, 2, 4] a.val 0 : Nat) : Fin 5)

instance : Field F5 where
  inv := F5.inv
  exists_pair_ne := ⟨(0 : Fin 5), (1 : Fin 5), by decide⟩
  mul_inv_cancel := by decide
  inv_zero := by decide
  nnqsmul := _
  qsmul := _

def skC6 : Yct14AbeSecretKey F5 := ⟨(("\"A\" and \"B\""), .HumanPolicy), []⟩
def ctC6 : Yct14AbeCiphertext F5 := ⟨[⟨("A"), some (.Public ⟨1⟩)⟩], ⟨⟨0⟩, [1]⟩⟩
def treeC6 : PolicyValue := .Object .And (.Array [.String ("A"), .String ("B")])

/-- Witness for C6: policy "A" and "B", ciphertext attribute set only A. -/
theorem decrypt_policy_mismatch_witness :
    parse skC6.policy.1 skC6.policy.2 = .ok treeC6 ∧
    wfTree treeC6 = true ∧
    satisfies (ctC6.attributes.map (·.name)) treeC6 = false ∧
    decrypt skC6 ctC6 = .err ("Error in decrypt: attributes do not match policy.") :=
  ⟨by decide, by decide, by decide,
    decrypt_policy_mismatch skC6 ctC6 treeC6 (by decide) (by decide) (by decide)⟩

/- ===================== C2, C5, C4, C1: concrete evaluations ===================== -/

def mskA : Yct14AbeMasterKey F5 := ⟨2, [⟨("A"), some (.Private 1)⟩]⟩

/-- C2: with master key knowing only attribute A, keygen on policy
"A" or "B" still returns Ok, silently dropping the failed leaf B: the secret
key's du holds a single entry (for A) although the policy has two leaves. -/
theorem keygen_drops_missing_leaf :
    parse ("\"A\" or \"B\"") .HumanPolicy =
      .ok (.Object .Or (.Array [.String ("A"), .String ("B")])) ∧
    (keygen mskA ("\"A\" or \"B\"") .HumanPolicy (fun _ => 1)).bind
      (fun sk => .ok (sk.du.map (fun a => a.name))) = .ok (["A"]) := by
  decide

def pkA : Yct14AbePublicKey F5 := ⟨⟨2⟩, [⟨("A"), some (.Public ⟨3⟩)⟩]⟩

/-- C5: encrypting for an attribute absent from the public key panics
(unwrap on None inside Yct14Attribute::public_from) instead of returning an
error value. -/
theorem encrypt_missing_attribute_panics :
    encrypt pkA ["D"] [7] (3 : F5) = .panic ("called Option::unwrap on a None value") := by
  decide

/-- C4 counterexample: on the policy "A" and "A" the generated shares carry
the labeled names ("A",0) and ("A",1) (rendered "A_0", "A_1"), but keygen
keys both du entries by the bare name "A": entries are not keyed by the
labeled name, and the two distinct leaves collide on the same key. -/
theorem keygen_bare_names_cex :
    parse ("\"A\" and \"A\"") .HumanPolicy =
      .ok (.Object .And (.Array [.String ("A"), .String ("A")])) ∧
    gen_shares_policy (fun _ => (1 : F5)) 2
        (.Object .And (.Array [.String ("A"), .String ("A")])) =
      some [(("A", 0), 3), (("A", 1), 4)] ∧
    (keygen mskA ("\"A\" and \"A\"") .HumanPolicy (fun _ => 1)).bind
      (fun sk => .ok (sk.du.map (fun a => a.name))) = .ok (["A", "A"]) ∧
    label_str (("A"), 0) = ("A_0") ∧ label_str (("A"), 1) = ("A_1") ∧
    (("A") : String) ≠ ("A_0") := by
  decide

def c1Keys : Yct14AbePublicKey F5 × Yct14AbeMasterKey F5 :=
  setup ["A", "B"] (2 : F5) ⟨3⟩ (fun i => ((i + 1 : Nat) : F5))
def c1Pol : String := ("(\"A\" and \"B\") or \"A\"")
def c1Tree : PolicyValue :=
  .Object .Or (.Array [.Object .And (.Array [.String ("A"), .String ("B")]), .String ("A")])

/-- C1 counterexample: for (pk, msk) = setup(["A","B"]), the policy
("A" and "B") or "A" (all leaves in U), the satisfying attribute set ["A"]
and the non-empty plaintext [7], decrypt(keygen(msk, P), encrypt(pk, A, m))
fails with SymmetricFailure instead of returning m: the duplicate attribute
name makes decrypt use the first "A" share (from the And branch) with the Or
branch's coefficient. -/
theorem yct14_duplicate_leaf_cex :
    parse c1Pol .HumanPolicy = .ok c1Tree ∧
    satisfies ["A"] c1Tree = true ∧
    ((keygen c1Keys.2 c1Pol .HumanPolicy (fun _ => 1)).bind fun sk =>
      (encrypt c1Keys.1 ["A"] [7] (3 : F5)).bind fun ct =>
        decrypt sk ct) = .err ("SymmetricFailure") := by
  decide

/- ===================== C4 (amended): bare-name keying ===================== -/

/-- Keep only the first entry for each attribute name (first-match closure of
the du vector). -/
def dedupByName {F : Type} (seen : List String) :
    List (Yct14Attribute F) → List (Yct14Attribute F)
  | [] => []
  | a :: rest =>
      if a.name ∈ seen then dedupByName seen rest
      else a :: dedupByName (a.name :: seen) rest

theorem private_from_name {F : Type} [Field F] [DecidableEq F]
    (inp : String × F) (msk : Yct14AbeMasterKey F) (v : Yct14Attribute F)
    (h : Yct14Attribute.private_from inp msk = .ok v) : v.name = inp.1 := by
  unfold Yct14Attribute.private_from at h
  split at h
  · split at h
    · cases h; rfl
    · cases h
  · cases h
  · cases h

def Outcome.isOk {α : Type} : Outcome α → Bool
  | .ok _ => true
  | _ => false

theorem keygenDu_ok {F : Type} [Field F] [DecidableEq F]
    (msk : Yct14AbeMasterKey F) :
    ∀ shares : List (Label × F),
      (∀ sh ∈ shares,
        (Yct14Attribute.private_from (remove_index sh.1, sh.2) msk).isOk = true) →
      ∃ du, keygenDu msk shares = .ok du ∧
        du.map (·.name) = shares.map (fun sh => remove_index sh.1)
  | [], _ => ⟨[], rfl, rfl⟩
  | sh :: rest, hsucc => by
      obtain ⟨du, hdu, hnames⟩ := keygenDu_ok msk rest (fun x hx => hsucc x (by simp [hx]))
      cases hv : Yct14Attribute.private_from (remove_index sh.1, sh.2) msk with
      | ok v =>
          refine ⟨v :: du, ?_, ?_⟩
          · simp [keygenDu, hv, hdu, Outcome.bind]
          · simp [hnames, private_from_name _ msk v hv]
      | err e =>
          have := hsucc sh (by simp)
          rw [hv] at this
          simp [Outcome.isOk] at this
      | panic m =>
          have := hsucc sh (by simp)
          rw [hv] at this
          simp [Outcome.isOk] at this

theorem dedup_filter_head {F : Type} :
    ∀ (du : List (Yct14Attribute F)) (seen : List String) (n : String), n ∉ seen →
      ((dedupByName seen du).filter (fun a => a.name == n)).head? =
        (du.filter (fun a => a.name == n)).head?
  | [], _, _, _ => rfl
  | a :: rest, seen, n, hn => by
      by_cases hseen : a.name ∈ seen
      · have hne : (a.name == n) = false := by
          simp only [beq_eq_false_iff_ne, ne_eq]
          intro h; exact hn (h ▸ hseen)
        simp [dedupByName, hseen, List.filter_cons, hne,
          dedup_filter_head rest seen n hn]
      · by_cases heq : a.name = n
        · simp [dedupByName, hseen, List.filter_cons, heq, hn]
        · have hne : (a.name == n) = false := by simp [heq]
          have hn' : n ∉ a.name :: seen := by
            simp only [List.mem_cons, not_or]
            exact ⟨fun h => heq h.symm, hn⟩
          simp [dedupByName, hseen, List.filter_cons, hne,
            dedup_filter_head rest (a.name :: seen) n hn']

theorem get_private_dedup {F : Type} [Field F] [DecidableEq F]
    (pol : String × PolicyLanguage) (du : List (Yct14Attribute F)) (n : String) :
    (Yct14AbeSecretKey.mk pol (dedupByName [] du)).get_private n =
      (Yct14AbeSecretKey.mk pol du).get_private n := by
  unfold Yct14AbeSecretKey.get_private
  rw [dedup_filter_head du [] n (by simp)]

theorem decryptProd_congr {F : Type} [Field F] [DecidableEq F]
    (sk sk' : Yct14AbeSecretKey F) (ct : Yct14AbeCiphertext F)
    (cl : List (Label × F))
    (hgp : ∀ n, sk'.get_private n = sk.get_private n) :
    ∀ (l : List (String × Label)) (acc : Gt F),
      decryptProd sk' ct cl l acc = decryptProd sk ct cl l acc
  | [], _ => rfl
  | attr0 :: rest, acc => by
      unfold decryptProd
      rw [hgp attr0.1]
      cases ct.get_public attr0.1 with
      | ok u =>
          cases sk.get_private attr0.1 with
          | ok d =>
              cases (cl.filter (fun a => a.1 == attr0.2)).head? with
              | some coeff => exact decryptProd_congr sk sk' ct cl hgp rest _
              | none => rfl
          | err e => rfl
          | panic m => rfl
      | err e => rfl
      | panic m => rfl

theorem decrypt_dedup {F : Type} [Field F] [DecidableEq F]
    (pol : String × PolicyLanguage) (du : List (Yct14Attribute F))
    (ct : Yct14AbeCiphertext F) :
    decrypt ⟨pol, dedupByName [] du⟩ ct = decrypt ⟨pol, du⟩ ct := by
  have hgp : ∀ n, (Yct14AbeSecretKey.mk pol (dedupByName [] du)).get_private n =
      (Yct14AbeSecretKey.mk pol du).get_private n := fun n => get_private_dedup pol du n
  unfold decrypt
  simp only []
  split
  · split
    · rfl
    · rfl
    · split
      · split
        · rfl
        · rw [decryptProd_congr ⟨pol, du⟩ _ ct _ hgp _ Gt.one]
      · rfl
  · rfl
  · rfl

/-- C4 (amended): every du entry produced by keygen is keyed by the bare
attribute name (remove_index of the leaf's labeled name), and decrypt reads
the secret key only through first-match bare-name lookups: entries shadowed by
an earlier entry of the same name never affect decryption, so distinct leaves
with the same attribute name collide instead of mapping to distinct entries. -/
theorem keygen_du_bare_names {F : Type} [Field F] [DecidableEq F]
    (msk : Yct14AbeMasterKey F) (p : String) (lang : PolicyLanguage)
    (rand : Nat → F) (tree : PolicyValue) (shares : List (Label × F))
    (sk : Yct14AbeSecretKey F)
    (hp : parse p lang = .ok tree)
    (hg : gen_shares_policy rand msk.s tree = some shares)
    (hsucc : ∀ sh ∈ shares,
      (Yct14Attribute.private_from (remove_index sh.1, sh.2) msk).isOk = true)
    (hk : keygen msk p lang rand = .ok sk) :
    sk.du.map (·.name) = shares.map (fun sh => remove_index sh.1) ∧
    ∀ ct : Yct14AbeCiphertext F,
      decrypt ⟨sk.policy, dedupByName [] sk.du⟩ ct = decrypt sk ct := by
  obtain ⟨du, hdu, hnames⟩ := keygenDu_ok msk shares hsucc
  have hsk : sk = ⟨(p, lang), du⟩ := by
    unfold keygen at hk
    simp only [hp, hg, hdu, Outcome.bind, Outcome.ok.injEq] at hk
    exact hk.symm
  subst hsk
  exact ⟨hnames, fun ct => decrypt_dedup (p, lang) du ct⟩

def polW : String := ("\"A\" and \"A\"")
def treeW : PolicyValue := .Object .And (.Array [.String ("A"), .String ("A")])
def sharesW : List (Label × F5) := [((("A"), 0), 3), ((("A"), 1), 4)]
def skW : Yct14AbeSecretKey F5 :=
  ⟨(polW, .HumanPolicy), [⟨("A"), some (.Private 3)⟩, ⟨("A"), some (.Private 4)⟩]⟩
def ctW : Yct14AbeCiphertext F5 := ⟨[⟨("A"), some (.Public ⟨2⟩)⟩], ⟨⟨1⟩, [3]⟩⟩

/-- Witness for C4 (amended) at the policy "A" and "A". -/
theorem keygen_du_bare_names_witness :
    skW.du.map (·.name) = sharesW.map (fun sh => remove_index sh.1) ∧
    decrypt ⟨skW.policy, dedupByName [] skW.du⟩ ctW = decrypt skW ctW :=
  have h := keygen_du_bare_names mskA polW .HumanPolicy (fun _ => 1) treeW sharesW skW
    (by decide) (by decide) (by decide) (by decide)
  ⟨h.1, h.2 ctW⟩

/- ================= C1 development: leaf labeling ================= -/

mutual

def leafCount : PolicyValue → Nat
  | .String _ => 1
  | .Object _ (.Array cs) => leafCountL cs
  | _ => 0

def leafCountL : List PolicyValue → Nat
  | [] => 0
  | c :: cs => leafCount c + leafCountL cs

end

mutual

/-- The labels the traversal counter assigns to the leaves, in order. -/
def leafLabels : PolicyValue → Nat → List Label
  | .String a, ctr => [(a, ctr)]
  | .Object _ (.Array cs), ctr => leafLabelsL cs ctr
  | _, _ => []

def leafLabelsL : List PolicyValue → Nat → List Label
  | [], _ => []
  | c :: cs, ctr => leafLabels c ctr ++ leafLabelsL cs (ctr + leafCount c)

end

def leafNames (t : PolicyValue) : List String := (leafLabels t 0).map (·.1)

mutual

theorem leafLabels_idx_range :
    ∀ (t : PolicyValue) (ctr : Nat), ∀ l ∈ leafLabels t ctr,
      ctr ≤ l.2 ∧ l.2 < ctr + leafCount t
  | .String a, ctr => by
      intro l hl
      simp only [leafLabels, List.mem_singleton] at hl
      subst hl
      simp [leafCount]
  | .Object t obj, ctr => by
      intro l hl
      cases obj with
      | Array cs =>
          simp only [leafLabels] at hl
          simpa [leafCount] using leafLabelsL_idx_range cs ctr l hl
      | Object t' obj' => simp [leafLabels] at hl
      | String s => simp [leafLabels] at hl
  | .Array _, ctr => by intro l hl; simp [leafLabels] at hl

theorem leafLabelsL_idx_range :
    ∀ (cs : List PolicyValue) (ctr : Nat), ∀ l ∈ leafLabelsL cs ctr,
      ctr ≤ l.2 ∧ l.2 < ctr + leafCountL cs
  | [], ctr => by intro l hl; simp [leafLabelsL] at hl
  | c :: cs, ctr => by
      intro l hl
      simp only [leafLabelsL, List.mem_append] at hl
      rcases hl with hl | hl
      · have := leafLabels_idx_range c ctr l hl
        simp only [leafCountL]
        omega
      · have := leafLabelsL_idx_range cs (ctr + leafCount c) l hl
        simp only [leafCountL]
        omega

end

mutual

theorem leafLabels_fst :
    ∀ (t : PolicyValue) (ctr ctr' : Nat),
      (leafLabels t ctr).map (·.1) = (leafLabels t ctr').map (·.1)
  | .String a, _, _ => rfl
  | .Object t obj, ctr, ctr' => by
      cases obj with
      | Array cs => simpa [leafLabels] using leafLabelsL_fst cs ctr ctr'
      | Object t' obj' => rfl
      | String s => rfl
  | .Array _, _, _ => rfl

theorem leafLabelsL_fst :
    ∀ (cs : List PolicyValue) (ctr ctr' : Nat),
      (leafLabelsL cs ctr).map (·.1) = (leafLabelsL cs ctr').map (·.1)
  | [], _, _ => rfl
  | c :: cs, ctr, ctr' => by
      simp only [leafLabelsL, List.map_append]
      rw [leafLabels_fst c ctr ctr', leafLabelsL_fst cs (ctr + leafCount c) (ctr' + leafCount c)]

end

/- ================= lookup locality ================= -/

def lookupVal {F : Type} [Field F] (l : Label) (xs : List (Label × F)) : F :=
  match xs.find? (fun p => p.1 == l) with
  | some p => p.2
  | none => 0

theorem lookupVal_append_right {F : Type} [Field F] (l : Label)
    (xs ys : List (Label × F)) (h : ∀ p ∈ xs, p.1 ≠ l) :
    lookupVal l (xs ++ ys) = lookupVal l ys := by
  unfold lookupVal
  have : xs.find? (fun p => p.1 == l) = none := by
    rw [List.find?_eq_none]
    intro p hp
    simpa using h p hp
  rw [List.find?_append, this]
  rfl

theorem lookupVal_append_left {F : Type} [Field F] (l : Label)
    (xs ys : List (Label × F)) (h : (xs.find? (fun p => p.1 == l)).isSome = true) :
    lookupVal l (xs ++ ys) = lookupVal l xs := by
  unfold lookupVal
  rw [List.find?_append]
  cases hf : xs.find? (fun p => p.1 == l) with
  | some p => rfl
  | none => rw [hf] at h; simp at h

/- ================= structure of the three traversals ================= -/

mutual

theorem gen_shares_struct {F : Type} [Field F] (rand : Nat → F) :
    ∀ t : PolicyValue, wfTree t = true → ∀ (s : F) (ctr rpos : Nat),
      ∃ sh rpos', gen_shares rand t s ctr rpos = some (sh, ctr + leafCount t, rpos') ∧
        sh.map (·.1) = leafLabels t ctr
  | .String a, _, s, ctr, rpos => ⟨[((a, ctr), s)], rpos, rfl, rfl⟩
  | .Object .And (.Array cs), hwf, s, ctr, rpos => by
      simp only [wfTree, Bool.and_eq_true, decide_eq_true_eq] at hwf
      obtain ⟨sh, rpos', h1, h2⟩ := gen_shares_children_struct rand cs hwf.2
        (s :: (List.range (cs.length - 1)).map (fun j => rand (rpos + j))) 1 ctr
        (rpos + (cs.length - 1))
      refine ⟨sh, rpos', ?_, ?_⟩
      · simp only [gen_shares, leafCount]
        rw [if_pos hwf.1]
        exact h1
      · simpa [leafLabels] using h2
  | .Object .Or (.Array cs), hwf, s, ctr, rpos => by
      simp only [wfTree, Bool.and_eq_true, decide_eq_true_eq] at hwf
      obtain ⟨sh, rpos', h1, h2⟩ := gen_shares_children_struct rand cs hwf.2 [s] 1 ctr rpos
      refine ⟨sh, rpos', ?_, ?_⟩
      · simp only [gen_shares, leafCount]
        rw [if_pos hwf.1]
        exact h1
      · simpa [leafLabels] using h2
  | .Object .And (.String _), hwf, _, _, _ => by simp [wfTree] at hwf
  | .Object .And (.Object _ _), hwf, _, _, _ => by simp [wfTree] at hwf
  | .Object .Or (.String _), hwf, _, _, _ => by simp [wfTree] at hwf
  | .Object .Or (.Object _ _), hwf, _, _, _ => by simp [wfTree] at hwf
  | .Object .Leaf _, hwf, _, _, _ => by simp [wfTree] at hwf
  | .Array _, hwf, _, _, _ => by simp [wfTree] at hwf

theorem gen_shares_children_struct {F : Type} [Field F] (rand : Nat → F) :
    ∀ cs : List PolicyValue, wfList cs = true → ∀ (coeffs : List F) (i ctr rpos : Nat),
      ∃ sh rpos', gen_shares_children rand cs coeffs i ctr rpos =
          some (sh, ctr + leafCountL cs, rpos') ∧
        sh.map (·.1) = leafLabelsL cs ctr
  | [], _, coeffs, i, ctr, rpos => ⟨[], rpos, rfl, rfl⟩
  | c :: cs, hwf, coeffs, i, ctr, rpos => by
      simp only [wfList, Bool.and_eq_true] at hwf
      obtain ⟨sh1, rpos1, h1, hl1⟩ := gen_shares_struct rand c hwf.1
        (polyEval coeffs ((i : Nat) : F)) ctr rpos
      obtain ⟨sh2, rpos2, h2, hl2⟩ := gen_shares_children_struct rand cs hwf.2 coeffs
        (i + 1) (ctr + leafCount c) rpos1
      refine ⟨sh1 ++ sh2, rpos2, ?_, ?_⟩
      · simp only [gen_shares_children, h1, Option.bind_eq_bind, Option.some_bind, h2]
        simp [leafCountL]
        omega
      · simp [hl1, hl2, leafLabelsL]

end

mutual

theorem calc_coefficients_struct {F : Type} [Field F] :
    ∀ t : PolicyValue, wfTree t = true → ∀ (c0 : F) (ctr : Nat),
      ∃ co, calc_coefficients t c0 ctr = some (co, ctr + leafCount t) ∧
        co.map (·.1) = leafLabels t ctr
  | .String a, _, c0, ctr => ⟨[((a, ctr), c0)], rfl, rfl⟩
  | .Object .And (.Array cs), hwf, c0, ctr => by
      simp only [wfTree, Bool.and_eq_true, decide_eq_true_eq] at hwf
      obtain ⟨co, h1, h2⟩ := calc_coefficients_children_struct
        (fun k => c0 * lagCoeff F cs.length k) cs hwf.2 0 ctr
      refine ⟨co, ?_, ?_⟩
      · simp only [calc_coefficients, leafCount]
        rw [if_pos hwf.1]
        exact h1
      · simpa [leafLabels] using h2
  | .Object .Or (.Array cs), hwf, c0, ctr => by
      simp only [wfTree, Bool.and_eq_true, decide_eq_true_eq] at hwf
      obtain ⟨co, h1, h2⟩ := calc_coefficients_children_struct
        (fun _ => c0 * 1) cs hwf.2 0 ctr
      refine ⟨co, ?_, ?_⟩
      · simp only [calc_coefficients, leafCount]
        rw [if_pos hwf.1]
        exact h1
      · simpa [leafLabels] using h2
  | .Object .And (.String _), hwf, _, _ => by simp [wfTree] at hwf
  | .Object .And (.Object _ _), hwf, _, _ => by simp [wfTree] at hwf
  | .Object .Or (.String _), hwf, _, _ => by simp [wfTree] at hwf
  | .Object .Or (.Object _ _), hwf, _, _ => by simp [wfTree] at hwf
  | .Object .Leaf _, hwf, _, _ => by simp [wfTree] at hwf
  | .Array _, hwf, _, _ => by simp [wfTree] at hwf

theorem calc_coefficients_children_struct {F : Type} [Field F] (f : Nat → F) :
    ∀ cs : List PolicyValue, wfList cs = true → ∀ (k ctr : Nat),
      ∃ co, calc_coefficients_children f cs k ctr = some (co, ctr + leafCountL cs) ∧
        co.map (·.1) = leafLabelsL cs ctr
  | [], _, k, ctr => ⟨[], rfl, rfl⟩
  | c :: cs, hwf, k, ctr => by
      simp only [wfList, Bool.and_eq_true] at hwf
      obtain ⟨co1, h1, hl1⟩ := calc_coefficients_struct c hwf.1 (f k) ctr
      obtain ⟨co2, h2, hl2⟩ := calc_coefficients_children_struct f cs hwf.2 (k + 1)
        (ctr + leafCount c)
      refine ⟨co1 ++ co2, ?_, ?_⟩
      · simp only [calc_coefficients_children, h1, Option.bind_eq_bind, Option.some_bind, h2]
        simp [leafCountL]
        omega
      · simp [hl1, hl2, leafLabelsL]

end

mutual

theorem calc_pruned_struct (avail : List String) :
    ∀ t : PolicyValue, wfTree t = true → ∀ ctr : Nat,
      ∃ cover, calc_pruned avail t ctr = .ok ((satisfies avail t, cover), ctr + leafCount t) ∧
        ∀ bl ∈ cover, bl.1 = bl.2.1 ∧ bl.2 ∈ leafLabels t ctr ∧ bl.1 ∈ avail
  | .String a, _, ctr => by
      by_cases h : a ∈ avail
      · refine ⟨[(a, (a, ctr))], ?_, ?_⟩
        · simp [calc_pruned, satisfies, h, leafCount]
        · intro bl hbl
          simp only [List.mem_singleton] at hbl
          subst hbl
          simp [leafLabels, h]
      · refine ⟨[], ?_, ?_⟩
        · simp [calc_pruned, satisfies, h, leafCount]
        · intro bl hbl; simp at hbl
  | .Object .And (.Array cs), hwf, ctr => by
      simp only [wfTree, Bool.and_eq_true, decide_eq_true_eq] at hwf
      obtain ⟨rs, h1, hall, _, hcov⟩ := calc_pruned_children_struct avail cs hwf.2 ctr
      refine ⟨(rs.map (·.2)).flatten, ?_, ?_⟩
      · simp only [calc_pruned, leafCount]
        rw [if_pos hwf.1]
        simp [h1, Outcome.bind, satisfies, hall]
      · intro bl hbl
        simp only [List.mem_flatten, List.mem_map] at hbl
        obtain ⟨l2, ⟨r, hr, hrl⟩, hbl⟩ := hbl
        subst hrl
        obtain ⟨e1, e2, e3⟩ := hcov r hr bl hbl
        exact ⟨e1, by simpa [leafLabels] using e2, e3⟩
  | .Object .Or (.Array cs), hwf, ctr => by
      simp only [wfTree, Bool.and_eq_true, decide_eq_true_eq] at hwf
      obtain ⟨rs, h1, _, hany, hcov⟩ := calc_pruned_children_struct avail cs hwf.2 ctr
      cases hfind : rs.find? (·.1) with
      | none =>
          have hs : satisfiesAny avail cs = false := by
            rw [← hany]
            simp only [List.any_eq_false]
            intro x hx
            simpa using List.find?_eq_none.mp hfind x hx
          refine ⟨[], ?_, ?_⟩
          · simp only [calc_pruned, leafCount]
            rw [if_pos hwf.1]
            simp [h1, Outcome.bind, satisfies, hs, hfind]
          · intro bl hbl; simp at hbl
      | some hit =>
          have hs : satisfiesAny avail cs = true := by
            rw [← hany]
            simp only [List.any_eq_true]
            exact ⟨hit, List.mem_of_find?_eq_some hfind, List.find?_some hfind⟩
          refine ⟨hit.2, ?_, ?_⟩
          · simp only [calc_pruned, leafCount]
            rw [if_pos hwf.1]
            simp [h1, Outcome.bind, satisfies, hs, hfind]
          · intro bl hbl
            obtain ⟨e1, e2, e3⟩ := hcov hit (List.mem_of_find?_eq_some hfind) bl hbl
            exact ⟨e1, by simpa [leafLabels] using e2, e3⟩
  | .Object .And (.String _), hwf, _ => by simp [wfTree] at hwf
  | .Object .And (.Object _ _), hwf, _ => by simp [wfTree] at hwf
  | .Object .Or (.String _), hwf, _ => by simp [wfTree] at hwf
  | .Object .Or (.Object _ _), hwf, _ => by simp [wfTree] at hwf
  | .Object .Leaf _, hwf, _ => by simp [wfTree] at hwf
  | .Array _, hwf, _ => by simp [wfTree] at hwf

theorem calc_pruned_children_struct (avail : List String) :
    ∀ cs : List PolicyValue, wfList cs = true → ∀ ctr : Nat,
      ∃ rs, calc_pruned_children avail cs ctr = .ok (rs, ctr + leafCountL cs) ∧
        (rs.all (·.1) = satisfiesAll avail cs) ∧
        (rs.any (·.1) = satisfiesAny avail cs) ∧
        ∀ r ∈ rs, ∀ bl ∈ r.2, bl.1 = bl.2.1 ∧ bl.2 ∈ leafLabelsL cs ctr ∧ bl.1 ∈ avail
  | [], _, ctr => ⟨[], rfl, rfl, rfl, by intro r hr; simp at hr⟩
  | c :: cs, hwf, ctr => by
      simp only [wfList, Bool.and_eq_true] at hwf
      obtain ⟨cover, hc, hcov⟩ := calc_pruned_struct avail c hwf.1 ctr
      obtain ⟨rs, hrs, hall, hany, hcovs⟩ := calc_pruned_children_struct avail cs hwf.2
        (ctr + leafCount c)
      refine ⟨(satisfies avail c, cover) :: rs, ?_, ?_, ?_, ?_⟩
      · simp only [calc_pruned_children, hc, Outcome.bind, hrs, leafCountL]
        simp
        omega
      · simp [satisfiesAll, hall]
      · simp [satisfiesAny, hany]
      · intro r hr bl hbl
        simp only [List.mem_cons] at hr
        rcases hr with hr | hr
        · subst hr
          obtain ⟨e1, e2, e3⟩ := hcov bl hbl
          exact ⟨e1, by simp [leafLabelsL, e2], e3⟩
        · obtain ⟨e1, e2, e3⟩ := hcovs r hr bl hbl
          exact ⟨e1, by simp [leafLabelsL, e2], e3⟩

end

/- ================= Lagrange reconstruction ================= -/

noncomputable def listToPoly {F : Type} [Field F] (c : List F) : Polynomial F :=
  ∑ i ∈ Finset.range c.length, Polynomial.C (c.getD i 0) * Polynomial.X ^ i

theorem polyEval_eq_sum {F : Type} [Field F] (c : List F) (x : F) :
    polyEval c x = ∑ i ∈ Finset.range c.length, c.getD i 0 * x ^ i := by
  induction c generalizing x with
  | nil => simp [polyEval]
  | cons c0 cs ih =>
      rw [polyEval, ih]
      rw [List.length_cons, Finset.sum_range_succ']
      simp only [List.getD_cons_succ, List.getD_cons_zero, pow_zero, mul_one, pow_succ,
        Finset.mul_sum]
      rw [add_comm]
      congr 1
      exact Finset.sum_congr rfl fun i _ => by ring

theorem eval_listToPoly {F : Type} [Field F] (c : List F) (x : F) :
    (listToPoly c).eval x = polyEval c x := by
  rw [polyEval_eq_sum, listToPoly, Polynomial.eval_finset_sum]
  refine Finset.sum_congr rfl fun i _ => by
    simp [Polynomial.eval_mul, Polynomial.eval_pow]

theorem degree_listToPoly_lt {F : Type} [Field F] (c : List F) :
    (listToPoly c).degree < (c.length : WithBot Nat) := by
  refine lt_of_le_of_lt (Polynomial.degree_sum_le _ _) ?_
  rw [Finset.sup_lt_iff (WithBot.bot_lt_coe _)]
  intro i hi
  refine lt_of_le_of_lt (Polynomial.degree_C_mul_X_pow_le _ _) ?_
  exact_mod_cast Finset.mem_range.mp hi

/-- Lagrange recovery at 0 from the values at 1..n of a polynomial of degree
below n: the heart of threshold reconstruction (spec 4.B.3 invariant). -/
theorem lagrange_sum {F : Type} [Field F] (n : Nat)
    (hinj : Set.InjOn (fun i : Nat => ((i + 1 : Nat) : F)) (Finset.range n))
    (c : List F) (hlen : c.length ≤ n) :
    ∑ k ∈ Finset.range n, lagCoeff F n k * polyEval c (((k + 1 : Nat) : F)) =
      polyEval c 0 := by
  have hdeg : (listToPoly c).degree < (Finset.range n).card := by
    rw [Finset.card_range]
    exact lt_of_lt_of_le (degree_listToPoly_lt c) (by exact_mod_cast hlen)
  have hP := Lagrange.eq_interpolate (s := Finset.range n)
    (v := fun i : Nat => ((i + 1 : Nat) : F)) hinj hdeg
  have h0 := congrArg (Polynomial.eval 0) hP
  rw [Lagrange.interpolate_apply, Polynomial.eval_finset_sum] at h0
  rw [eval_listToPoly] at h0
  rw [h0]
  refine Finset.sum_congr rfl fun k hk => ?_
  rw [Polynomial.eval_mul, Polynomial.eval_C, eval_listToPoly]
  rw [mul_comm]
  congr 1
  rw [Lagrange.basis, Polynomial.eval_prod, lagCoeff]
  refine Finset.prod_congr rfl fun j hj => ?_
  rw [Lagrange.basisDivisor, Polynomial.eval_mul, Polynomial.eval_C]
  simp only [Polynomial.eval_sub, Polynomial.eval_X, Polynomial.eval_C]
  rw [div_eq_mul_inv, mul_comm]

/- ================= arity conditions and cover sums ================= -/

/-- The evaluation points 1..n are pairwise distinct in F (holds whenever the
characteristic exceeds n; checked as a decidable Bool). -/
def distinctCasts (F : Type) [Field F] [DecidableEq F] (n : Nat) : Bool :=
  (List.range n).all fun a => (List.range n).all fun b =>
    a == b || decide (((a + 1 : Nat) : F) ≠ ((b + 1 : Nat) : F))

mutual

/-- Every And gate's child count has pairwise-distinct evaluation points in F. -/
def aritiesOk (F : Type) [Field F] [DecidableEq F] : PolicyValue → Bool
  | .Object .And (.Array cs) => distinctCasts F cs.length && aritiesOkL F cs
  | .Object .Or (.Array cs) => aritiesOkL F cs
  | _ => true

def aritiesOkL (F : Type) [Field F] [DecidableEq F] : List PolicyValue → Bool
  | [] => true
  | c :: cs => aritiesOk F c && aritiesOkL F cs

end

theorem distinctCasts_injOn {F : Type} [Field F] [DecidableEq F] (n : Nat)
    (h : distinctCasts F n = true) :
    Set.InjOn (fun i : Nat => ((i + 1 : Nat) : F)) (Finset.range n) := by
  intro a ha b hb hab
  simp only [Finset.coe_range, Set.mem_Iio] at ha hb
  unfold distinctCasts at h
  simp only [List.all_eq_true, List.mem_range, Bool.or_eq_true, beq_iff_eq,
    decide_eq_true_eq] at h
  rcases h a ha b hb with h' | h'
  · exact h'
  · exact absurd hab h'

/-- The reconstruction sum over a cover: coefficient times share, both looked
up by labeled name. -/
def covSum {F : Type} [Field F] (cover : List (String × Label))
    (co sh : List (Label × F)) : F :=
  (cover.map fun bl => lookupVal bl.2 co * lookupVal bl.2 sh).sum

theorem covSum_append {F : Type} [Field F] (c1 c2 : List (String × Label))
    (co sh : List (Label × F)) :
    covSum (c1 ++ c2) co sh = covSum c1 co sh + covSum c2 co sh := by
  simp [covSum]

theorem covSum_congr {F : Type} [Field F] (cover : List (String × Label))
    (co co' sh sh' : List (Label × F))
    (h : ∀ bl ∈ cover, lookupVal bl.2 co = lookupVal bl.2 co' ∧
      lookupVal bl.2 sh = lookupVal bl.2 sh') :
    covSum cover co sh = covSum cover co' sh' := by
  unfold covSum
  congr 1
  refine List.map_congr_left fun bl hbl => ?_
  rw [(h bl hbl).1, (h bl hbl).2]

theorem find?_isSome_of_mem_fst {F : Type} [Field F] (l : Label)
    (xs : List (Label × F)) (h : l ∈ xs.map (·.1)) :
    (xs.find? (fun p => p.1 == l)).isSome = true := by
  rw [List.find?_isSome]
  simp only [List.mem_map] at h
  obtain ⟨p, hp, hpl⟩ := h
  exact ⟨p, hp, by simp [hpl]⟩

theorem polyEval_head {F : Type} [Field F] (c0 : F) (cs : List F) :
    polyEval (c0 :: cs) 0 = c0 := by simp [polyEval]

theorem polyEval_single {F : Type} [Field F] (s x : F) : polyEval [s] x = s := by
  simp [polyEval]

mutual

/-- Reconstruction invariant (spec 4.B.3): over any well-formed tree whose
gate arities embed injectively into F, the cover returned by calc_pruned,
the coefficients of calc_coefficients and the shares of gen_shares (all
started at the same counter) satisfy sum(coeff * share) = top * secret. -/
theorem share_reconstruction {F : Type} [Field F] [DecidableEq F]
    (rand : Nat → F) (avail : List String) :
    ∀ t : PolicyValue, wfTree t = true → aritiesOk F t = true →
    ∀ (s c0 : F) (ctr rpos : Nat) (gres : List (Label × F) × Nat × Nat)
      (cres : List (Label × F) × Nat) (cover : List (String × Label)) (ctrp : Nat),
      gen_shares rand t s ctr rpos = some gres →
      calc_coefficients t c0 ctr = some cres →
      calc_pruned avail t ctr = .ok ((true, cover), ctrp) →
      covSum cover cres.1 gres.1 = c0 * s
  | .String a, _, _, s, c0, ctr, rpos, gres, cres, cover, ctrp => by
      intro hg hc hp
      simp only [gen_shares, Option.some.injEq] at hg
      simp only [calc_coefficients, Option.some.injEq] at hc
      by_cases hmem : a ∈ avail
      · simp only [calc_pruned, if_pos hmem, Outcome.ok.injEq, Prod.mk.injEq] at hp
        obtain ⟨⟨_, hcov⟩, _⟩ := hp
        subst hcov
        rw [← hg, ← hc]
        simp [covSum, lookupVal]
      · simp only [calc_pruned, if_neg hmem, Outcome.ok.injEq, Prod.mk.injEq] at hp
        exact absurd hp.1.1.symm (by simp)
  | .Object .And (.Array cs), hwf, har, s, c0, ctr, rpos, gres, cres, cover, ctrp => by
      intro hg hc hp
      simp only [wfTree, Bool.and_eq_true, decide_eq_true_eq] at hwf
      simp only [aritiesOk, Bool.and_eq_true] at har
      simp only [gen_shares, if_pos hwf.1] at hg
      simp only [calc_coefficients, if_pos hwf.1] at hc
      simp only [calc_pruned, if_pos hwf.1] at hp
      cases hpc : calc_pruned_children avail cs ctr with
      | ok rsp =>
          rw [hpc] at hp
          simp only [Outcome.bind, Outcome.ok.injEq, Prod.mk.injEq] at hp
          obtain ⟨⟨hall, hcov⟩, _⟩ := hp
          have hmain := (share_reconstruction_children rand avail cs hwf.2 har.2
            (s :: (List.range (cs.length - 1)).map fun j => rand (rpos + j))
            (fun j => c0 * lagCoeff F cs.length j) 1 0 ctr (rpos + (cs.length - 1))
            gres cres rsp.1 rsp.2 hg hc (by rw [hpc])).1 hall
          rw [← hcov, hmain]
          have hinj := distinctCasts_injOn (F := F) cs.length har.1
          have hlen : (s :: (List.range (cs.length - 1)).map fun j =>
              rand (rpos + j)).length ≤ cs.length := by
            simp only [List.length_cons, List.length_map, List.length_range]
            omega
          have hstep : ∑ j ∈ Finset.range cs.length,
              c0 * lagCoeff F cs.length (0 + j) *
                polyEval (s :: (List.range (cs.length - 1)).map fun j => rand (rpos + j))
                  (((1 + j : Nat) : F)) =
              c0 * ∑ j ∈ Finset.range cs.length, lagCoeff F cs.length j *
                polyEval (s :: (List.range (cs.length - 1)).map fun j => rand (rpos + j))
                  (((j + 1 : Nat) : F)) := by
            rw [Finset.mul_sum]
            refine Finset.sum_congr rfl fun j _ => ?_
            have e1 : 0 + j = j := by omega
            have e2 : 1 + j = j + 1 := by omega
            rw [e1, e2, mul_assoc]
          rw [hstep, lagrange_sum cs.length hinj _ hlen, polyEval_head]
      | err e => rw [hpc] at hp; simp [Outcome.bind] at hp
      | panic m => rw [hpc] at hp; simp [Outcome.bind] at hp
  | .Object .Or (.Array cs), hwf, har, s, c0, ctr, rpos, gres, cres, cover, ctrp => by
      intro hg hc hp
      simp only [wfTree, Bool.and_eq_true, decide_eq_true_eq] at hwf
      simp only [aritiesOk] at har
      simp only [gen_shares, if_pos hwf.1] at hg
      simp only [calc_coefficients, if_pos hwf.1] at hc
      simp only [calc_pruned, if_pos hwf.1] at hp
      cases hpc : calc_pruned_children avail cs ctr with
      | ok rsp =>
          rw [hpc] at hp
          simp only [Outcome.bind] at hp
          cases hfind : rsp.1.find? (·.1) with
          | none =>
              rw [hfind] at hp
              simp only [Outcome.ok.injEq, Prod.mk.injEq] at hp
              exact absurd hp.1.1.symm (by simp)
          | some hit =>
              rw [hfind] at hp
              simp only [Outcome.ok.injEq, Prod.mk.injEq] at hp
              obtain ⟨⟨_, hcov⟩, _⟩ := hp
              obtain ⟨j, hj, hsum⟩ := (share_reconstruction_children rand avail cs hwf.2 har
                [s] (fun _ => c0 * 1) 1 0 ctr rpos
                gres cres rsp.1 rsp.2 hg hc (by rw [hpc])).2 hit hfind
              rw [← hcov, hsum, polyEval_single, mul_one]
      | err e => rw [hpc] at hp; simp [Outcome.bind] at hp
      | panic m => rw [hpc] at hp; simp [Outcome.bind] at hp
  | .Object .And (.String _), hwf, _, _, _, _, _, _, _, _, _ => by simp [wfTree] at hwf
  | .Object .And (.Object _ _), hwf, _, _, _, _, _, _, _, _, _ => by simp [wfTree] at hwf
  | .Object .Or (.String _), hwf, _, _, _, _, _, _, _, _, _ => by simp [wfTree] at hwf
  | .Object .Or (.Object _ _), hwf, _, _, _, _, _, _, _, _, _ => by simp [wfTree] at hwf
  | .Object .Leaf _, hwf, _, _, _, _, _, _, _, _, _ => by simp [wfTree] at hwf
  | .Array _, hwf, _, _, _, _, _, _, _, _, _ => by simp [wfTree] at hwf

theorem share_reconstruction_children {F : Type} [Field F] [DecidableEq F]
    (rand : Nat → F) (avail : List String) :
    ∀ cs : List PolicyValue, wfList cs = true → aritiesOkL F cs = true →
    ∀ (coeffs : List F) (f : Nat → F) (i k ctr rpos : Nat)
      (gres : List (Label × F) × Nat × Nat) (cres : List (Label × F) × Nat)
      (rs : List (Bool × List (String × Label))) (ctrp : Nat),
      gen_shares_children rand cs coeffs i ctr rpos = some gres →
      calc_coefficients_children f cs k ctr = some cres →
      calc_pruned_children avail cs ctr = .ok (rs, ctrp) →
      ((rs.all (·.1) = true →
        covSum ((rs.map (·.2)).flatten) cres.1 gres.1 =
          ∑ j ∈ Finset.range cs.length, f (k + j) * polyEval coeffs (((i + j : Nat) : F))) ∧
       (∀ hit, rs.find? (·.1) = some hit →
        ∃ j, j < cs.length ∧ covSum hit.2 cres.1 gres.1 =
          f (k + j) * polyEval coeffs (((i + j : Nat) : F))))
  | [], _, _, coeffs, f, i, k, ctr, rpos, gres, cres, rs, ctrp => by
      intro hg hc hp
      simp only [gen_shares_children, Option.some.injEq] at hg
      simp only [calc_coefficients_children, Option.some.injEq] at hc
      simp only [calc_pruned_children, Outcome.ok.injEq, Prod.mk.injEq] at hp
      obtain ⟨hrs, _⟩ := hp
      subst hrs
      constructor
      · intro _
        rw [← hg, ← hc]
        simp [covSum]
      · intro hit hfind
        simp at hfind
  | c :: cs', hwf, har, coeffs, f, i, k, ctr, rpos, gres, cres, rs, ctrp => by
      intro hg hc hp
      simp only [wfList, Bool.and_eq_true] at hwf
      simp only [aritiesOkL, Bool.and_eq_true] at har
      obtain ⟨sh1, rpos1, hg1, hlsh1⟩ := gen_shares_struct rand c hwf.1
        (polyEval coeffs ((i : Nat) : F)) ctr rpos
      obtain ⟨co1, hc1, hlco1⟩ := calc_coefficients_struct c hwf.1 (f k) ctr
      obtain ⟨cover1, hp1, hcov1⟩ := calc_pruned_struct avail c hwf.1 ctr
      rw [gen_shares_children, hg1] at hg
      rw [calc_coefficients_children, hc1] at hc
      rw [calc_pruned_children, hp1] at hp
      simp only [Option.bind_eq_bind, Option.some_bind] at hg hc
      simp only [Outcome.bind] at hp
      cases hg2 : gen_shares_children rand cs' coeffs (i + 1) (ctr + leafCount c) rpos1 with
      | none => rw [hg2] at hg; simp at hg
      | some r2 =>
      cases hc2 : calc_coefficients_children f cs' (k + 1) (ctr + leafCount c) with
      | none => rw [hc2] at hc; simp at hc
      | some q2 =>
      cases hp2 : calc_pruned_children avail cs' (ctr + leafCount c) with
      | err e => rw [hp2] at hp; simp [Outcome.bind] at hp
      | panic m => rw [hp2] at hp; simp [Outcome.bind] at hp
      | ok pr2 =>
      rw [hg2] at hg
      rw [hc2] at hc
      rw [hp2] at hp
      simp only [Option.some_bind, Option.some.injEq] at hg hc
      simp only [Outcome.bind, Outcome.ok.injEq, Prod.mk.injEq] at hp
      obtain ⟨hrs, hctrp⟩ := hp
      -- label index bounds
      have hsh1idx : ∀ p ∈ sh1, p.1.2 < ctr + leafCount c := by
        intro p hps
        have : p.1 ∈ leafLabels c ctr := by
          rw [← hlsh1]; exact List.mem_map_of_mem _ hps
        exact (leafLabels_idx_range c ctr p.1 this).2
      have hco1idx : ∀ p ∈ co1, p.1.2 < ctr + leafCount c := by
        intro p hps
        have : p.1 ∈ leafLabels c ctr := by
          rw [← hlco1]; exact List.mem_map_of_mem _ hps
        exact (leafLabels_idx_range c ctr p.1 this).2
      have hshift : ∀ l : Label, ctr + leafCount c ≤ l.2 →
          lookupVal l (co1 ++ q2.1) = lookupVal l q2.1 ∧
          lookupVal l (sh1 ++ r2.1) = lookupVal l r2.1 := by
        intro l hl
        constructor
        · refine lookupVal_append_right l co1 q2.1 fun p hps => ?_
          intro hpe
          have := hco1idx p hps
          rw [hpe] at this
          omega
        · refine lookupVal_append_right l sh1 r2.1 fun p hps => ?_
          intro hpe
          have := hsh1idx p hps
          rw [hpe] at this
          omega
      have hlocal1 : ∀ bl ∈ cover1,
          lookupVal bl.2 (co1 ++ q2.1) = lookupVal bl.2 co1 ∧
          lookupVal bl.2 (sh1 ++ r2.1) = lookupVal bl.2 sh1 := by
        intro bl hbl
        obtain ⟨_, hmem, _⟩ := hcov1 bl hbl
        constructor
        · exact lookupVal_append_left bl.2 co1 q2.1
            (find?_isSome_of_mem_fst bl.2 co1 (by rw [hlco1]; exact hmem))
        · exact lookupVal_append_left bl.2 sh1 r2.1
            (find?_isSome_of_mem_fst bl.2 sh1 (by rw [hlsh1]; exact hmem))
      -- head sum when the head is satisfied
      have hsum1 : satisfies avail c = true →
          covSum cover1 (co1 ++ q2.1) (sh1 ++ r2.1) =
            f k * polyEval coeffs ((i : Nat) : F) := by
        intro hsat
        rw [covSum_congr cover1 _ co1 _ sh1 hlocal1]
        refine share_reconstruction rand avail c hwf.1 har.1
          (polyEval coeffs ((i : Nat) : F)) (f k) ctr rpos
          (sh1, ctr + leafCount c, rpos1) (co1, ctr + leafCount c) cover1
          (ctr + leafCount c) hg1 hc1 ?_
        rw [hp1, hsat]
      -- rest covers live above the boundary
      have hrestcov : ∀ r ∈ pr2.1, ∀ bl ∈ r.2, ctr + leafCount c ≤ bl.2.2 := by
        obtain ⟨rs', hrs', _, _, hprops⟩ := calc_pruned_children_struct avail cs' hwf.2
          (ctr + leafCount c)
        rw [hp2] at hrs'
        simp only [Outcome.ok.injEq] at hrs'
        intro r hr bl hbl
        rw [hrs'] at hr
        have hmem := (hprops r hr bl hbl).2.1
        exact (leafLabelsL_idx_range cs' (ctr + leafCount c) bl.2 hmem).1
      have ih := share_reconstruction_children rand avail cs' hwf.2 har.2 coeffs f
        (i + 1) (k + 1) (ctr + leafCount c) rpos1 r2 q2 pr2.1 pr2.2 hg2 hc2 (by rw [hp2])
      rw [← hg, ← hc, ← hrs]
      constructor
      · intro hall
        simp only [List.all_cons, Bool.and_eq_true] at hall
        simp only [List.map_cons, List.flatten_cons]
        rw [covSum_append]
        rw [hsum1 hall.1]
        have hrest : covSum ((pr2.1.map (·.2)).flatten) (co1 ++ q2.1) (sh1 ++ r2.1) =
            covSum ((pr2.1.map (·.2)).flatten) q2.1 r2.1 := by
          refine covSum_congr _ _ _ _ _ fun bl hbl => ?_
          simp only [List.mem_flatten, List.mem_map] at hbl
          obtain ⟨l2, ⟨r, hr, hrl⟩, hbl⟩ := hbl
          subst hrl
          exact hshift bl.2 (hrestcov r hr bl hbl)
        rw [hrest, ih.1 hall.2]
        rw [List.length_cons, Finset.sum_range_succ']
        have hzero : f (k + 0) * polyEval coeffs (((i + 0 : Nat) : F)) =
            f k * polyEval coeffs ((i : Nat) : F) := by norm_num
        rw [hzero, add_comm]
        congr 1
        refine Finset.sum_congr rfl fun j _ => ?_
        have e1 : k + 1 + j = k + (j + 1) := by omega
        have e2 : i + 1 + j = i + (j + 1) := by omega
        rw [e1, e2]
      · intro hit hfind
        cases hsat : satisfies avail c with
        | true =>
            rw [hsat] at hfind
            rw [List.find?_cons_of_pos _ rfl] at hfind
            simp only [Option.some.injEq] at hfind
            subst hfind
            refine ⟨0, by simp, ?_⟩
            have := hsum1 hsat
            simpa using this
        | false =>
            rw [hsat] at hfind
            rw [List.find?_cons_of_neg _ (by simp)] at hfind
            obtain ⟨j, hj, hsum⟩ := ih.2 hit hfind
            refine ⟨j + 1, by simpa using hj, ?_⟩
            have hhit : covSum hit.2 (co1 ++ q2.1) (sh1 ++ r2.1) =
                covSum hit.2 q2.1 r2.1 := by
              refine covSum_congr _ _ _ _ _ fun bl hbl => ?_
              exact hshift bl.2 (hrestcov hit (List.mem_of_find?_eq_some hfind) bl hbl)
            rw [hhit, hsum]
            have e1 : k + 1 + j = k + (j + 1) := by omega
            have e2 : i + 1 + j = i + (j + 1) := by omega
            rw [e1, e2]

end

/- ================= assembly lemmas for end-to-end correctness ================= -/

/-- The master-key scalar stored for an attribute (0 when absent). -/
def mskVal {F : Type} [Field F] [DecidableEq F] (msk : Yct14AbeMasterKey F)
    (a : String) : F :=
  match msk.get_private a with
  | .ok v => v
  | _ => 0

theorem setup_attr_lookup {F : Type} [Field F] [DecidableEq F]
    (g : Gt F) (sr : Nat → F) (a : String) :
    ∀ (U : List String) (i : Nat), a ∈ U →
      ∃ j, (((setupPairs g sr U i).map (·.2)).filter
              (fun x => x.name == a && x.node.isSome)).head? =
            some ⟨a, some (.Private (sr j))⟩ ∧
          (((setupPairs g sr U i).map (·.1)).filter (fun x => x.name == a)).head? =
            some ⟨a, some (.Public (g.pow (sr j)))⟩
  | [], _, ha => absurd ha (by simp)
  | b :: rest, i, ha => by
      by_cases hb : b = a
      · subst hb
        exact ⟨i, by simp [setupPairs, Yct14Attribute.new, List.filter_cons],
          by simp [setupPairs, Yct14Attribute.new, List.filter_cons]⟩
      · have ha' : a ∈ rest := by
          rcases List.mem_cons.mp ha with h | h
          · exact absurd h.symm hb
          · exact h
        obtain ⟨j, h1, h2⟩ := setup_attr_lookup g sr a rest (i + 1) ha'
        refine ⟨j, ?_, ?_⟩
        · simpa [setupPairs, Yct14Attribute.new, List.filter_cons, hb] using h1
        · simpa [setupPairs, Yct14Attribute.new, List.filter_cons, hb] using h2

theorem setup_get_private {F : Type} [Field F] [DecidableEq F]
    (U : List String) (s : F) (g : Gt F) (sr : Nat → F) (a : String) (ha : a ∈ U) :
    ∃ j, Yct14AbeMasterKey.get_private ⟨s, (setupPairs g sr U 0).map (·.2)⟩ a = .ok (sr j) ∧
      ((((setupPairs g sr U 0).map (·.1)).filter (fun x => x.name == a)).head? =
        some ⟨a, some (.Public (g.pow (sr j)))⟩) := by
  obtain ⟨j, h1, h2⟩ := setup_attr_lookup g sr a U 0 ha
  refine ⟨j, ?_, h2⟩
  unfold Yct14AbeMasterKey.get_private
  rw [h1]
  rfl

theorem keygenDu_values {F : Type} [Field F] [DecidableEq F]
    (msk : Yct14AbeMasterKey F) (σ : String → F) :
    ∀ shares : List (Label × F),
      (∀ sh ∈ shares, msk.get_private sh.1.1 = .ok (σ sh.1.1) ∧ σ sh.1.1 ≠ 0) →
      keygenDu msk shares =
        .ok (shares.map fun sh => ⟨sh.1.1, some (.Private (sh.2 * (σ sh.1.1)⁻¹))⟩)
  | [], _ => rfl
  | sh :: rest, hσ => by
      have hh := hσ sh (by simp)
      have hrest := keygenDu_values msk σ rest (fun x hx => hσ x (by simp [hx]))
      have hpf : Yct14Attribute.private_from (remove_index sh.1, sh.2) msk =
          .ok ⟨sh.1.1, some (.Private (sh.2 * (σ sh.1.1)⁻¹))⟩ := by
        unfold Yct14Attribute.private_from remove_index
        rw [hh.1]
        simp [inverse, hh.2]
      simp only [keygenDu, hpf, hrest, Outcome.bind, List.map_cons]

theorem du_get_private {F : Type} [Field F] [DecidableEq F]
    (pol : String × PolicyLanguage) (σ : String → F) :
    ∀ (shares : List (Label × F)) (l : Label),
      (shares.map (·.1.1)).Nodup → l ∈ shares.map (·.1) →
      Yct14AbeSecretKey.get_private
        ⟨pol, shares.map fun sh => ⟨sh.1.1, some (.Private (sh.2 * (σ sh.1.1)⁻¹))⟩⟩ l.1 =
        .ok (lookupVal l shares * (σ l.1)⁻¹)
  | [], l, _, hmem => absurd hmem (by simp)
  | sh :: rest, l, hnodup, hmem => by
      simp only [List.map_cons, List.nodup_cons] at hnodup
      by_cases hl : sh.1 = l
      · unfold Yct14AbeSecretKey.get_private
        rw [← hl]
        simp only [List.map_cons, List.filter_cons, beq_self_eq_true, if_pos,
          List.head?_cons]
        unfold lookupVal
        rw [List.find?_cons_of_pos _ (by simp)]
        rfl
      · have hlrest : l ∈ rest.map (·.1) := by
          rcases List.mem_map.mp hmem with ⟨p, hp, hpe⟩
          rcases List.mem_cons.mp hp with h | h
          · exact absurd (h ▸ hpe) hl
          · exact hpe ▸ List.mem_map_of_mem _ h
        have hname : sh.1.1 ≠ l.1 := by
          intro he
          apply hnodup.1
          rcases List.mem_map.mp hlrest with ⟨p, hp, hpe⟩
          rw [he, ← hpe]
          exact List.mem_map.mpr ⟨p, hp, rfl⟩
        have ih := du_get_private pol σ rest l hnodup.2 hlrest
        unfold Yct14AbeSecretKey.get_private at ih ⊢
        simp only [List.map_cons, List.filter_cons]
        rw [if_neg (by simpa using hname)]
        unfold lookupVal
        rw [List.find?_cons_of_neg _ (by simpa using hl)]
        unfold lookupVal at ih
        exact ih

theorem encryptAttrs_ok {F : Type} [Field F] [DecidableEq F]
    (pk : Yct14AbePublicKey F) (k : F) (pub : String → Gt F) :
    ∀ A : List String,
      (∀ a ∈ A, ((pk.attributes.filter (fun x => x.name == a)).head? =
        some ⟨a, some (.Public (pub a))⟩)) →
      encryptAttrs pk k A = .ok (A.map fun a => ⟨a, some (.Public ((pub a).pow k))⟩)
  | [], _ => rfl
  | a :: rest, hA => by
      have hh := hA a (by simp)
      have hrest := encryptAttrs_ok pk k pub rest (fun x hx => hA x (by simp [hx]))
      have hpf : Yct14Attribute.public_from a pk k =
          .ok ⟨a, some (.Public ((pub a).pow k))⟩ := by
        unfold Yct14Attribute.public_from
        rw [hh]
      simp only [encryptAttrs, hpf, hrest, Outcome.bind, List.map_cons]

theorem ct_get_public {F : Type} [Field F] [DecidableEq F]
    (env : SymCt F) (k : F) (pub : String → Gt F) (b : String) :
    ∀ A : List String, b ∈ A →
      Yct14AbeCiphertext.get_public
        ⟨A.map (fun a => ⟨a, some (.Public ((pub a).pow k))⟩), env⟩ b =
        .ok ((pub b).pow k)
  | [], hmem => absurd hmem (by simp)
  | a :: rest, hmem => by
      by_cases hab : a = b
      · subst hab
        unfold Yct14AbeCiphertext.get_public
        simp only [List.map_cons, List.filter_cons, beq_self_eq_true, if_pos,
          List.head?_cons]
        rfl
      · have hbrest : b ∈ rest := by
          rcases List.mem_cons.mp hmem with h | h
          · exact absurd h.symm hab
          · exact h
        have ih := ct_get_public env k pub b rest hbrest
        unfold Yct14AbeCiphertext.get_public at ih ⊢
        simp only [List.map_cons, List.filter_cons]
        rw [if_neg (by simpa using hab)]
        exact ih

theorem coeff_lookup {F : Type} [Field F] [DecidableEq F]
    (co : List (Label × F)) (l : Label) (h : l ∈ co.map (·.1)) :
    (co.filter (fun a => a.1 == l)).head? = some (l, lookupVal l co) := by
  rw [head?_filter_eq_find?]
  cases hf : co.find? (fun p => p.1 == l) with
  | none =>
      have := find?_isSome_of_mem_fst l co h
      rw [hf] at this
      simp at this
  | some p =>
      have hpe : p.1 = l := by simpa using List.find?_some hf
      unfold lookupVal
      rw [hf]
      rw [← hpe]

theorem decryptProd_eval {F : Type} [Field F] [DecidableEq F]
    (sk : Yct14AbeSecretKey F) (ct : Yct14AbeCiphertext F)
    (cl : List (Label × F)) (uF : String → Gt F) (dF cF : Label → F) :
    ∀ (cover : List (String × Label)) (acc : Gt F),
      (∀ bl ∈ cover, ct.get_public bl.1 = .ok (uF bl.1) ∧
        sk.get_private bl.1 = .ok (dF bl.2) ∧
        (cl.filter (fun a => a.1 == bl.2)).head? = some (bl.2, cF bl.2)) →
      decryptProd sk ct cl cover acc =
        .ok ⟨acc.dlog + (cover.map fun bl => (uF bl.1).dlog * dF bl.2 * cF bl.2).sum⟩
  | [], acc, _ => by simp [decryptProd]
  | bl :: rest, acc, hprops => by
      obtain ⟨hu, hd, hc⟩ := hprops bl (by simp)
      have ih := decryptProd_eval sk ct cl uF dF cF rest
        (acc.mul (((uF bl.1).pow (dF bl.2)).pow (cF bl.2)))
        (fun x hx => hprops x (by simp [hx]))
      unfold decryptProd
      simp only [hu, hd, hc]
      rw [ih]
      simp only [Gt.mul, Gt.pow, List.map_cons, List.sum_cons, Outcome.ok.injEq, Gt.mk.injEq]
      ring

/-- C1 (amended): end-to-end KP-ABE correctness for policies whose leaves
carry pairwise distinct attribute names: for (pk, msk) = setup(U) with nonzero
per-attribute scalars, a well-formed policy over attributes of U whose gate
arities embed injectively into Fr, an attribute set A of U satisfying the
policy and a non-empty plaintext, decrypt(keygen(msk, P), encrypt(pk, A, m))
succeeds and returns m. -/
theorem yct14_correct {F : Type} [Field F] [DecidableEq F]
    (U : List String) (s : F) (g : Gt F) (sr : Nat → F)
    (polStr : String) (lang : PolicyLanguage) (tree : PolicyValue)
    (A : List String) (m : List Nat) (rand : Nat → F) (k : F)
    (hsr : ∀ i, sr i ≠ 0)
    (hparse : parse polStr lang = .ok tree)
    (hwf : wfTree tree = true)
    (har : aritiesOk F tree = true)
    (hnodup : (leafNames tree).Nodup)
    (hleaves : ∀ a ∈ leafNames tree, a ∈ U)
    (hA : ∀ a ∈ A, a ∈ U)
    (hAne : A ≠ [])
    (hm : m ≠ [])
    (hsat : satisfies A tree = true) :
    ∃ sk ct, keygen (setup U s g sr).2 polStr lang rand = .ok sk ∧
      encrypt (setup U s g sr).1 A m k = .ok ct ∧
      decrypt sk ct = .ok m := by
  have hkeyP : ∀ a ∈ U, (setup U s g sr).2.get_private a = .ok (mskVal (setup U s g sr).2 a) ∧
      mskVal (setup U s g sr).2 a ≠ 0 ∧
      (((setup U s g sr).1.attributes.filter (fun x => x.name == a)).head? =
        some ⟨a, some (.Public (g.pow (mskVal (setup U s g sr).2 a)))⟩) := by
    intro a ha
    obtain ⟨j, h1, h2⟩ := setup_get_private U s g sr a ha
    have h1' : (setup U s g sr).2.get_private a = .ok (sr j) := h1
    have h2' : (((setup U s g sr).1.attributes.filter (fun x => x.name == a)).head? =
        some ⟨a, some (.Public (g.pow (sr j)))⟩) := h2
    have hv : mskVal (setup U s g sr).2 a = sr j := by
      unfold mskVal
      rw [h1']
    rw [hv]
    exact ⟨h1', hsr j, h2'⟩
  obtain ⟨shares, rpos', hg, hlsh⟩ := gen_shares_struct rand tree hwf s 0 0
  have hnames : shares.map (·.1.1) = leafNames tree := by
    have h1 : shares.map (·.1.1) = (shares.map (·.1)).map (·.1) := by
      simp [List.map_map]
    rw [h1, hlsh]
    rfl
  have hshprop : ∀ sh ∈ shares,
      (setup U s g sr).2.get_private sh.1.1 = .ok (mskVal (setup U s g sr).2 sh.1.1) ∧
      mskVal (setup U s g sr).2 sh.1.1 ≠ 0 := by
    intro sh hsh
    have hmem : sh.1.1 ∈ leafNames tree := by
      rw [← hnames]
      exact List.mem_map_of_mem _ hsh
    have := hkeyP sh.1.1 (hleaves _ hmem)
    exact ⟨this.1, this.2.1⟩
  have hdu := keygenDu_values (setup U s g sr).2 (fun a => mskVal (setup U s g sr).2 a)
    shares hshprop
  have hgp : gen_shares_policy rand (setup U s g sr).2.s tree = some shares := by
    show (gen_shares rand tree (setup U s g sr).2.s 0 0).map (·.1) = some shares
    have hg' : gen_shares rand tree (setup U s g sr).2.s 0 0 =
        some (shares, 0 + leafCount tree, rpos') := hg
    rw [hg']
    rfl
  have hkg : keygen (setup U s g sr).2 polStr lang rand = .ok
      ⟨(polStr, lang), shares.map fun sh =>
        ⟨sh.1.1, some (.Private (sh.2 * (mskVal (setup U s g sr).2 sh.1.1)⁻¹))⟩⟩ := by
    unfold keygen
    simp only [hparse, hgp, hdu, Outcome.bind]
  have hAisE : A.isEmpty = false := by
    cases A with
    | nil => exact absurd rfl hAne
    | cons a rest => rfl
  have hmisE : m.isEmpty = false := by
    cases m with
    | nil => exact absurd rfl hm
    | cons a rest => rfl
  have hattrs := encryptAttrs_ok (setup U s g sr).1 k
    (fun a => g.pow (mskVal (setup U s g sr).2 a)) A
    (fun a ha => (hkeyP a (hA a ha)).2.2)
  have henc : encrypt (setup U s g sr).1 A m k = .ok
      ⟨A.map (fun a => ⟨a, some (.Public ((g.pow (mskVal (setup U s g sr).2 a)).pow k))⟩),
        ⟨(setup U s g sr).1.g.pow k, m⟩⟩ := by
    unfold encrypt
    simp only [hAisE, hmisE, Bool.false_eq_true, if_false, hattrs, Outcome.bind,
      encrypt_symmetric]
  refine ⟨_, _, hkg, henc, ?_⟩
  obtain ⟨cover, hcp, hcov⟩ := calc_pruned_struct A tree hwf 0
  rw [hsat] at hcp
  obtain ⟨co, hco, hlco⟩ := calc_coefficients_struct tree hwf (1 : F) 0
  have hctnames : ((A.map (fun a =>
      (⟨a, some (.Public ((g.pow (mskVal (setup U s g sr).2 a)).pow k))⟩ : Yct14Attribute F))).map
        (·.name)) = A := by
    simp [Function.comp_def]
  have hcp' : calc_pruned ((A.map (fun a =>
      (⟨a, some (.Public ((g.pow (mskVal (setup U s g sr).2 a)).pow k))⟩ : Yct14Attribute F))).map
        (·.name)) tree 0 = .ok ((true, cover), 0 + leafCount tree) := by
    rw [hctnames]
    exact hcp
  -- the reconstruction product
  have hprops : ∀ bl ∈ cover,
      Yct14AbeCiphertext.get_public
        ⟨A.map (fun a => ⟨a, some (.Public ((g.pow (mskVal (setup U s g sr).2 a)).pow k))⟩),
          ⟨(setup U s g sr).1.g.pow k, m⟩⟩ bl.1 =
        .ok ((g.pow (mskVal (setup U s g sr).2 bl.1)).pow k) ∧
      Yct14AbeSecretKey.get_private
        ⟨(polStr, lang), shares.map fun sh =>
          ⟨sh.1.1, some (.Private (sh.2 * (mskVal (setup U s g sr).2 sh.1.1)⁻¹))⟩⟩ bl.1 =
        .ok (lookupVal bl.2 shares * (mskVal (setup U s g sr).2 bl.2.1)⁻¹) ∧
      (co.filter (fun a => a.1 == bl.2)).head? = some (bl.2, lookupVal bl.2 co) := by
    intro bl hbl
    obtain ⟨hbare, hlab, hav⟩ := hcov bl hbl
    refine ⟨?_, ?_, ?_⟩
    · exact ct_get_public _ k _ bl.1 A hav
    · have hnd : (shares.map (·.1.1)).Nodup := by rw [hnames]; exact hnodup
      have hmem : bl.2 ∈ shares.map (·.1) := by rw [hlsh]; exact hlab
      have := du_get_private (polStr, lang) (fun a => mskVal (setup U s g sr).2 a)
        shares bl.2 hnd hmem
      rw [hbare]
      exact this
    · exact coeff_lookup co bl.2 (by rw [hlco]; exact hlab)
  have hprod := decryptProd_eval _ _ co
    (fun b => (g.pow (mskVal (setup U s g sr).2 b)).pow k)
    (fun l => lookupVal l shares * (mskVal (setup U s g sr).2 l.1)⁻¹)
    (fun l => lookupVal l co) cover Gt.one hprops
  -- per-term algebra
  have hterm : ∀ bl ∈ cover,
      ((g.pow (mskVal (setup U s g sr).2 bl.1)).pow k).dlog *
        (lookupVal bl.2 shares * (mskVal (setup U s g sr).2 bl.2.1)⁻¹) *
        lookupVal bl.2 co =
      (g.dlog * k) * (lookupVal bl.2 co * lookupVal bl.2 shares) := by
    intro bl hbl
    obtain ⟨hbare, hlab, _⟩ := hcov bl hbl
    have hne : mskVal (setup U s g sr).2 bl.2.1 ≠ 0 := by
      have hmem : bl.2.1 ∈ leafNames tree := by
        have : bl.2 ∈ (leafLabels tree 0) := hlab
        exact List.mem_map_of_mem _ this
      exact (hkeyP bl.2.1 (hleaves _ hmem)).2.1
    rw [hbare]
    simp only [Gt.pow]
    field_simp
    ring
  have hsum : (cover.map fun bl =>
      ((g.pow (mskVal (setup U s g sr).2 bl.1)).pow k).dlog *
        (lookupVal bl.2 shares * (mskVal (setup U s g sr).2 bl.2.1)⁻¹) *
        lookupVal bl.2 co).sum =
      (g.dlog * k) * covSum cover co shares := by
    rw [List.map_congr_left hterm]
    unfold covSum
    rw [← List.sum_map_mul_left]
  have hrecon : covSum cover co shares = 1 * s :=
    share_reconstruction rand A tree hwf har s 1 0 0
      (shares, 0 + leafCount tree, rpos') (co, 0 + leafCount tree) cover
      (0 + leafCount tree) hg hco hcp
  -- put decrypt together
  unfold decrypt
  simp only [hparse, hcp', hco, Outcome.bind, if_true, hprod]
  have hkey : (Gt.mk (Gt.one.dlog + (g.dlog * k) * (1 * s)) : Gt F) =
      ((setup U s g sr).1.g.pow k) := by
    show Gt.mk ((0 : F) + (g.dlog * k) * (1 * s)) = (g.pow s).pow k
    simp only [Gt.pow, Gt.mk.injEq]
    ring
  rw [hsum, hrecon, hkey]
  unfold decrypt_symmetric
  rw [if_pos rfl]

def uW : List String := ["A", "B"]
def polC1W : String := ("\"A\" or \"B\"")
def treeC1W : PolicyValue := .Object .Or (.Array [.String ("A"), .String ("B")])

/-- Witness for C1 (amended) over the concrete field F5: U = [A,B],
P = "A" or "B", A = ["A"], m = [7]. -/
theorem yct14_correct_witness :
    ∃ sk ct,
      keygen (setup uW (2 : F5) ⟨3⟩ (fun _ => 1)).2 polC1W .HumanPolicy (fun _ => 0) = .ok sk ∧
      encrypt (setup uW (2 : F5) ⟨3⟩ (fun _ => 1)).1 ["A"] [7] (3 : F5) = .ok ct ∧
      decrypt sk ct = .ok [7] :=
  yct14_correct uW (2 : F5) ⟨3⟩ (fun _ => 1) polC1W .HumanPolicy treeC1W ["A"] [7]
    (fun _ => 0) (3 : F5)
    (fun _ => (by decide : (1 : F5) ≠ 0)) (by decide) (by decide) (by decide) (by decide)
    (by decide) (by decide) (by decide) (by decide) (by decide)

/- ===================== Serialization round trip ===================== -/

mutual

/-- The JSON emission as a total function on trees (the JSON branch of
serialize_policy never fails). -/
def serJ : PolicyValue → List Char
  | .Object .And obj => jsonAndPre ++ serJ obj ++ [rbraceC]
  | .Object .Or obj => jsonOrPre ++ serJ obj ++ [rbraceC]
  | .Object .Leaf obj => serJ obj
  | .Array a => jsonChildrenPre ++ joinSep commaSpace (serJL a) ++ [(']')]
  | .String s => jsonLeafPre ++ s.data ++ jsonLeafSuf

def serJL : List PolicyValue → List (List Char)
  | [] => []
  | v :: vs => serJ v :: serJL vs

end

mutual

/-- The human emission on gate-shaped nodes. -/
def serH : PolicyValue → List Char
  | .Object t obj => serHInner t obj
  | .Array _ => []
  | .String s => s.data

def serHInner : PolicyType → PolicyValue → List Char
  | .And, .Array a => ('(') :: (joinSep andSep (serHL a) ++ [(')')])
  | .Or, .Array a => ('(') :: (joinSep orSep (serHL a) ++ [(')')])
  | _, _ => []

def serHL : List PolicyValue → List (List Char)
  | [] => []
  | v :: vs => serH v :: serHL vs

end

mutual

/-- Round-trip well-formed trees: leaves carry non-empty identifier names,
inner nodes are gates over at least two well-formed children. -/
def rtOk : PolicyValue → Bool
  | .String s => !s.data.isEmpty && s.data.all isIdentChar
  | .Object .And (.Array cs) => decide (2 ≤ cs.length) && rtOkL cs
  | .Object .Or (.Array cs) => decide (2 ≤ cs.length) && rtOkL cs
  | _ => false

def rtOkL : List PolicyValue → Bool
  | [] => true
  | v :: vs => rtOk v && rtOkL vs

end

mutual

/-- Fuel needed by the JSON parser on a serialized tree. -/
def jcost : PolicyValue → Nat
  | .Object _ (.Array cs) => 2 + jcostL cs
  | _ => 1

def jcostL : List PolicyValue → Nat
  | [] => 0
  | v :: vs => 1 + jcost v + jcostL vs

end

mutual

/-- Fuel needed by the human parser on a serialized tree. -/
def hcost : PolicyValue → Nat
  | .Object _ (.Array cs) => 5 + hcostL cs
  | _ => 1

def hcostL : List PolicyValue → Nat
  | [] => 1
  | v :: vs => 2 + hcost v + hcostL vs

end

/-- The tail of a human And-gate body: separators and children, then rest. -/
def glueAnd : List PolicyValue → List Char → List Char
  | [], rest => rest
  | v :: vs, rest => andSep ++ (serH v ++ glueAnd vs rest)

/-- The tail of a human Or-gate body. -/
def glueOr : List PolicyValue → List Char → List Char
  | [], rest => rest
  | v :: vs, rest => orSep ++ (serH v ++ glueOr vs rest)

mutual

theorem serChars_json : ∀ (t : PolicyValue) (par : Option PolicyType),
    serChars t .JsonPolicy par = .ok (serJ t)
  | .Object .And obj, _ => by
      simp [serChars, serJ, serChars_json obj none, Outcome.bind]
  | .Object .Or obj, _ => by
      simp [serChars, serJ, serChars_json obj none, Outcome.bind]
  | .Object .Leaf obj, _ => by
      simp [serChars, serJ, serChars_json obj none]
  | .Array a, _ => by
      simp [serChars, serJ, serList_json a, Outcome.bind]
  | .String s, _ => by simp [serChars, serJ]

theorem serList_json : ∀ (vs : List PolicyValue),
    serList vs .JsonPolicy = .ok (serJL vs)
  | [] => by simp [serList, serJL]
  | v :: vs => by
      simp [serList, serJL, serChars_json v none, serList_json vs, Outcome.bind]

end

mutual

theorem serChars_human : ∀ (t : PolicyValue), rtOk t = true →
    ∀ (par : Option PolicyType), serChars t .HumanPolicy par = .ok (serH t)
  | .Object .And (.Array a), h, par => by
      have hl : rtOkL a = true := by
        simp [rtOk, Bool.and_eq_true] at h; exact h.2
      simp [serChars, serH, serHInner, serList_human a hl, Outcome.bind]
  | .Object .Or (.Array a), h, par => by
      have hl : rtOkL a = true := by
        simp [rtOk, Bool.and_eq_true] at h; exact h.2
      simp [serChars, serH, serHInner, serList_human a hl, Outcome.bind]
  | .String s, _, par => by simp [serChars, serH]
  | .Object .And (.Object t o), h, _ => by simp [rtOk] at h
  | .Object .And (.String s), h, _ => by simp [rtOk] at h
  | .Object .Or (.Object t o), h, _ => by simp [rtOk] at h
  | .Object .Or (.String s), h, _ => by simp [rtOk] at h
  | .Object .Leaf obj, h, _ => by simp [rtOk] at h
  | .Array a, h, _ => by simp [rtOk] at h

theorem serList_human : ∀ (vs : List PolicyValue), rtOkL vs = true →
    serList vs .HumanPolicy = .ok (serHL vs)
  | [], _ => by simp [serList, serHL]
  | v :: vs, h => by
      have h' : rtOk v = true ∧ rtOkL vs = true := by
        simpa [rtOkL, Bool.and_eq_true] using h
      simp [serList, serHL, serChars_human v h'.1 none, serList_human vs h'.2,
        Outcome.bind]

end

/- ===================== Parser evaluation kit ===================== -/

theorem string_mk_data (s : String) : String.mk s.data = s := rfl

theorem jsonLeafPre_eq :
    jsonLeafPre = lbraceC :: (quoteC :: (nameKey ++ (quoteC :: ((':') :: ((' ') ::
      [quoteC]))))) := rfl

theorem jsonLeafSuf_eq : jsonLeafSuf = quoteC :: [rbraceC] := rfl

theorem jsonAndPre_eq :
    jsonAndPre = lbraceC :: (quoteC :: (nameKey ++ (quoteC :: ((':') :: ((' ') ::
      (quoteC :: (andChars ++ (quoteC :: ((',') :: [(' ')]))))))))) := rfl

theorem jsonOrPre_eq :
    jsonOrPre = lbraceC :: (quoteC :: (nameKey ++ (quoteC :: ((':') :: ((' ') ::
      (quoteC :: (orChars ++ (quoteC :: ((',') :: [(' ')]))))))))) := rfl

theorem jsonChildrenPre_eq :
    jsonChildrenPre = quoteC :: (childrenKey ++ (quoteC :: ((':') :: ((' ') ::
      [('[')])))) := rfl

theorem commaSpace_eq : commaSpace = (',') :: [(' ')] := rfl

theorem andSep_eq : andSep = (' ') :: ('a') :: ('n') :: ('d') :: [(' ')] := rfl

theorem orSep_eq : orSep = (' ') :: ('o') :: ('r') :: [(' ')] := rfl

theorem skipWs_lbrace (l : List Char) : skipWs (lbraceC :: l) = lbraceC :: l := rfl
theorem skipWs_quote (l : List Char) : skipWs (quoteC :: l) = quoteC :: l := rfl
theorem skipWs_colon (l : List Char) : skipWs ((':') :: l) = (':') :: l := rfl
theorem skipWs_comma (l : List Char) : skipWs ((',') :: l) = (',') :: l := rfl
theorem skipWs_lbrack (l : List Char) : skipWs (('[') :: l) = ('[') :: l := rfl
theorem skipWs_rbrack (l : List Char) : skipWs ((']') :: l) = (']') :: l := rfl
theorem skipWs_rbrace (l : List Char) : skipWs (rbraceC :: l) = rbraceC :: l := rfl
theorem skipWs_lparen (l : List Char) : skipWs (('(') :: l) = ('(') :: l := rfl
theorem skipWs_rparen (l : List Char) : skipWs ((')') :: l) = (')') :: l := rfl
theorem skipWs_aChar (l : List Char) : skipWs (('a') :: l) = ('a') :: l := rfl
theorem skipWs_oChar (l : List Char) : skipWs (('o') :: l) = ('o') :: l := rfl
theorem skipWs_space (l : List Char) : skipWs ((' ') :: l) = skipWs l := rfl
theorem skipWs_nil : skipWs [] = [] := rfl

theorem skipWs_not (c : Char) (l : List Char) (h : isWsChar c = false) :
    skipWs (c :: l) = c :: l := by simp [skipWs, h]

theorem skipWs_pre : ∀ (pre l : List Char), (∀ c ∈ pre, isWsChar c = true) →
    skipWs (pre ++ l) = skipWs l
  | [], l, _ => rfl
  | c :: pre, l, h => by
      rw [List.cons_append, show skipWs (c :: (pre ++ l)) = skipWs (pre ++ l) from
        by simp [skipWs, h c (by simp)]]
      exact skipWs_pre pre l (fun d hd => h d (by simp [hd]))

theorem expectC_pos (c : Char) (l : List Char) : expectC c (c :: l) = some l := by
  simp [expectC]

theorem expectC_comma_rbrace (l : List Char) : expectC (',') (rbraceC :: l) = none := rfl
theorem expectC_comma_rbrack (l : List Char) : expectC (',') ((']') :: l) = none := rfl

theorem stripPrefixCs_self : ∀ (p l : List Char), stripPrefixCs p (p ++ l) = some l
  | [], l => rfl
  | c :: p, l => by simp [stripPrefixCs, stripPrefixCs_self p l]

theorem expectKey_quoted (k l : List Char) :
    expectKey k (quoteC :: (k ++ (quoteC :: l))) = some l := by
  unfold expectKey
  rw [show quoteC :: (k ++ (quoteC :: l)) = (quoteC :: (k ++ [quoteC])) ++ l from
    by simp, stripPrefixCs_self]

theorem takeUntilQuote_ident : ∀ (l r : List Char), (∀ c ∈ l, isIdentChar c = true) →
    takeUntilQuote (l ++ (quoteC :: r)) = some (l, r)
  | [], r, _ => by simp [takeUntilQuote]
  | c :: l, r, h => by
      have hc : isIdentChar c = true := h c (by simp)
      have hne : ¬ c = quoteC := fun he => by
        subst he; exact absurd hc (by decide)
      rw [List.cons_append]
      simp [takeUntilQuote, hne, takeUntilQuote_ident l r (fun d hd => h d (by simp [hd]))]

theorem ws_of_ident (c : Char) (h : isIdentChar c = true) : isWsChar c = false := by
  by_contra hw
  rw [Bool.not_eq_false] at hw
  simp only [isWsChar, Bool.or_eq_true, decide_eq_true_eq] at hw
  rcases hw with ((h1 | h1) | h1) | h1 <;> subst h1 <;> exact absurd h (by decide)

theorem takeIdent_pre : ∀ (p rest : List Char), (∀ c ∈ p, isIdentChar c = true) →
    kwBoundary rest = true → takeIdent (p ++ rest) = (p, rest)
  | [], rest, _, hkw => by
      cases rest with
      | nil => rfl
      | cons c r =>
          have hc : isIdentChar c = false := by
            simpa [kwBoundary, Bool.not_eq_true'] using hkw
          simp [takeIdent, hc]
  | c :: p, rest, h, hkw => by
      have hc : isIdentChar c = true := h c (by simp)
      simp [takeIdent, hc,
        takeIdent_pre p rest (fun d hd => h d (by simp [hd])) hkw]

/- ===================== JSON round trip ===================== -/

mutual

theorem jsonVal_ser : ∀ (t : PolicyValue), rtOk t = true → ∀ (f : Nat), jcost t ≤ f →
    ∀ (pre rest : List Char), (∀ c ∈ pre, isWsChar c = true) →
    jsonVal f (pre ++ (serJ t ++ rest)) = some (t, rest)
  | .String s, h, f, hf, pre, rest, hpre => by
      simp only [rtOk, Bool.and_eq_true, Bool.not_eq_true'] at h
      have hid : ∀ c ∈ s.data, isIdentChar c = true := by
        simpa using h.2
      have hf1 : jcost (.String s) = 1 := rfl
      obtain ⟨f', rfl⟩ : ∃ f', f = f' + 1 := ⟨f - 1, by omega⟩
      simp only [serJ, jsonLeafPre_eq, jsonLeafSuf_eq, List.cons_append,
        List.append_assoc, List.nil_append]
      simp only [jsonVal, skipWs_pre _ _ hpre, skipWs_lbrace, skipWs_quote,
        skipWs_colon, skipWs_space, skipWs_rbrace, expectC_pos, expectKey_quoted,
        Option.some_bind, takeUntilQuote_ident _ _ hid, expectC_comma_rbrace,
        string_mk_data]
  | .Object .And (.Array (c1 :: c2 :: cs)), h, f, hf, pre, rest, hpre => by
      simp only [rtOk, Bool.and_eq_true, decide_eq_true_eq] at h
      have hlen : 2 ≤ (c1 :: c2 :: cs).length := h.1
      have hl : rtOkL (c1 :: c2 :: cs) = true := h.2
      simp only [jcost, jcostL] at hf
      obtain ⟨f', rfl⟩ : ∃ f', f = f' + 1 := ⟨f - 1, by omega⟩
      have hitems : jsonItems f' (joinSep commaSpace (serJL (c1 :: c2 :: cs)) ++
          ((']') :: (rbraceC :: rest))) = some (c1 :: c2 :: cs, rbraceC :: rest) := by
        have := jsonItems_ser (c1 :: c2 :: cs) hl (by simp) f'
          (by simp [jcostL]; omega)
          [] (rbraceC :: rest) (by simp)
        simpa using this
      simp only [serJ, jsonAndPre_eq, jsonChildrenPre_eq, List.cons_append,
        List.append_assoc, List.nil_append]
      simp only [jsonVal, skipWs_pre _ _ hpre, skipWs_lbrace, skipWs_quote,
        skipWs_colon, skipWs_comma, skipWs_space, skipWs_lbrack, skipWs_rbrace,
        expectC_pos, expectKey_quoted, Option.some_bind,
        takeUntilQuote_ident _ _ (by decide : ∀ c ∈ andChars, isIdentChar c = true),
        hitems]
      have hnl : ¬ (c1 :: c2 :: cs).length < 2 := by
        simp only [List.length_cons]; omega
      simp [hnl, Outcome.bind]
  | .Object .Or (.Array (c1 :: c2 :: cs)), h, f, hf, pre, rest, hpre => by
      simp only [rtOk, Bool.and_eq_true, decide_eq_true_eq] at h
      have hl : rtOkL (c1 :: c2 :: cs) = true := h.2
      simp only [jcost, jcostL] at hf
      obtain ⟨f', rfl⟩ : ∃ f', f = f' + 1 := ⟨f - 1, by omega⟩
      have hitems : jsonItems f' (joinSep commaSpace (serJL (c1 :: c2 :: cs)) ++
          ((']') :: (rbraceC :: rest))) = some (c1 :: c2 :: cs, rbraceC :: rest) := by
        have := jsonItems_ser (c1 :: c2 :: cs) hl (by simp) f'
          (by simp [jcostL]; omega)
          [] (rbraceC :: rest) (by simp)
        simpa using this
      simp only [serJ, jsonOrPre_eq, jsonChildrenPre_eq, List.cons_append,
        List.append_assoc, List.nil_append]
      simp only [jsonVal, skipWs_pre _ _ hpre, skipWs_lbrace, skipWs_quote,
        skipWs_colon, skipWs_comma, skipWs_space, skipWs_lbrack, skipWs_rbrace,
        expectC_pos, expectKey_quoted, Option.some_bind,
        takeUntilQuote_ident _ _ (by decide : ∀ c ∈ orChars, isIdentChar c = true),
        hitems]
      have hnl : ¬ (c1 :: c2 :: cs).length < 2 := by
        simp only [List.length_cons]; omega
      have hoa : ¬ orChars = andChars := by decide
      simp [hnl, hoa, Outcome.bind]
  | .Object .And (.Array []), h, _, _, _, _, _ => by simp [rtOk] at h
  | .Object .And (.Array [c]), h, _, _, _, _, _ => by simp [rtOk] at h
  | .Object .Or (.Array []), h, _, _, _, _, _ => by simp [rtOk] at h
  | .Object .Or (.Array [c]), h, _, _, _, _, _ => by simp [rtOk] at h
  | .Object .And (.Object t o), h, _, _, _, _, _ => by simp [rtOk] at h
  | .Object .And (.String s), h, _, _, _, _, _ => by simp [rtOk] at h
  | .Object .Or (.Object t o), h, _, _, _, _, _ => by simp [rtOk] at h
  | .Object .Or (.String s), h, _, _, _, _, _ => by simp [rtOk] at h
  | .Object .Leaf o, h, _, _, _, _, _ => by simp [rtOk] at h
  | .Array a, h, _, _, _, _, _ => by simp [rtOk] at h

theorem jsonItems_ser : ∀ (vs : List PolicyValue), rtOkL vs = true → vs ≠ [] →
    ∀ (f : Nat),
    jcostL vs ≤ f → ∀ (pre rest : List Char), (∀ c ∈ pre, isWsChar c = true) →
    jsonItems f (pre ++ (joinSep commaSpace (serJL vs) ++ ((']') :: rest))) =
      some (vs, rest)
  | [], _, hne, _, _, _, _, _ => absurd rfl hne
  | [v], h, _, f, hf, pre, rest, hpre => by
      simp only [rtOkL, Bool.and_eq_true] at h
      simp only [jcostL] at hf
      obtain ⟨f', rfl⟩ : ∃ f', f = f' + 1 := ⟨f - 1, by omega⟩
      simp only [serJL, joinSep]
      simp only [jsonItems,
        jsonVal_ser v h.1 f' (by omega) pre ((']') :: rest) hpre,
        Option.some_bind, skipWs_rbrack, expectC_comma_rbrack, expectC_pos]
  | v :: w :: vs, h, _, f, hf, pre, rest, hpre => by
      simp only [rtOkL, Bool.and_eq_true] at h
      simp only [jcostL] at hf
      obtain ⟨f', rfl⟩ : ∃ f', f = f' + 1 := ⟨f - 1, by omega⟩
      have hrec : jsonItems f' ((' ') :: (joinSep commaSpace (serJL (w :: vs)) ++
          ((']') :: rest))) = some (w :: vs, rest) := by
        have := jsonItems_ser (w :: vs) (by simp [rtOkL, h.2.1, h.2.2]) (by simp) f'
          (by simp [jcostL]; omega) [(' ')] rest (by simp [isWsChar])
        simpa using this
      have hsplit : joinSep commaSpace (serJL (v :: w :: vs)) ++ ((']') :: rest) =
          serJ v ++ ((',') :: ((' ') ::
            (joinSep commaSpace (serJL (w :: vs)) ++ ((']') :: rest)))) := by
        rw [show serJL (v :: w :: vs) = serJ v :: serJL (w :: vs) from rfl]
        rw [show serJL (w :: vs) = serJ w :: serJL vs from rfl]
        simp [joinSep, commaSpace_eq]
      rw [hsplit]
      simp only [jsonItems,
        jsonVal_ser v h.1 f' (by omega) pre ((',') :: ((' ') ::
          (joinSep commaSpace (serJL (w :: vs)) ++ ((']') :: rest)))) hpre,
        Option.some_bind, skipWs_comma, expectC_pos, hrec]

end

theorem len_jsonAndPre : jsonAndPre.length = 16 := rfl
theorem len_jsonOrPre : jsonOrPre.length = 15 := rfl
theorem len_jsonLeafPre : jsonLeafPre.length = 10 := rfl
theorem len_jsonLeafSuf : jsonLeafSuf.length = 2 := rfl
theorem len_jsonChildrenPre : jsonChildrenPre.length = 13 := rfl
theorem len_andSep : andSep.length = 5 := rfl
theorem len_orSep : orSep.length = 4 := rfl
theorem len_commaSpace : commaSpace.length = 2 := rfl

theorem serJ_len_pos : ∀ (t : PolicyValue), 1 ≤ (serJ t).length
  | .String s => by
      simp [serJ, List.length_append, len_jsonLeafPre, len_jsonLeafSuf]
      omega
  | .Object .And obj => by
      simp [serJ, List.length_append, len_jsonAndPre]
      omega
  | .Object .Or obj => by
      simp [serJ, List.length_append, len_jsonOrPre]
      omega
  | .Object .Leaf obj => by
      simpa [serJ] using serJ_len_pos obj
  | .Array a => by
      simp [serJ, List.length_append, len_jsonChildrenPre]
      omega

theorem joinSep_len_cons (sep x : List Char) (xs : List (List Char)) (hne : xs ≠ []) :
    (joinSep sep (x :: xs)).length = x.length + sep.length + (joinSep sep xs).length := by
  cases xs with
  | nil => exact absurd rfl hne
  | cons y ys => simp [joinSep, List.length_append]; omega

mutual

theorem jcost_le : ∀ (t : PolicyValue), jcost t ≤ (serJ t).length
  | .String s => by
      simp [jcost, serJ, List.length_append, len_jsonLeafPre, len_jsonLeafSuf]
      omega
  | .Object .And (.Array cs) => by
      have h := jcostL_le cs
      simp only [jcost, serJ, List.length_append, len_jsonAndPre,
        len_jsonChildrenPre, List.length_cons, List.length_nil] at *
      omega
  | .Object .Or (.Array cs) => by
      have h := jcostL_le cs
      simp only [jcost, serJ, List.length_append, len_jsonOrPre,
        len_jsonChildrenPre, List.length_cons, List.length_nil] at *
      omega
  | .Object .Leaf (.Array cs) => by
      have h := jcostL_le cs
      simp only [jcost, serJ, List.length_append, len_jsonChildrenPre,
        List.length_cons, List.length_nil] at *
      omega
  | .Object .And (.Object t2 o) => by
      simp [jcost, serJ, List.length_append, len_jsonAndPre]
      omega
  | .Object .Or (.Object t2 o) => by
      simp [jcost, serJ, List.length_append, len_jsonOrPre]
      omega
  | .Object .Leaf (.Object t2 o) => by
      have h := serJ_len_pos (.Object t2 o)
      simpa [jcost, serJ] using h
  | .Object .And (.String s2) => by
      simp [jcost, serJ, List.length_append, len_jsonAndPre, len_jsonLeafPre,
        len_jsonLeafSuf]
      omega
  | .Object .Or (.String s2) => by
      simp [jcost, serJ, List.length_append, len_jsonOrPre, len_jsonLeafPre,
        len_jsonLeafSuf]
      omega
  | .Object .Leaf (.String s2) => by
      have h := serJ_len_pos (.String s2)
      simpa [jcost, serJ] using h
  | .Array a => by
      simp [jcost, serJ, List.length_append, len_jsonChildrenPre]
      omega

theorem jcostL_le : ∀ (vs : List PolicyValue),
    jcostL vs ≤ (joinSep commaSpace (serJL vs)).length + 1
  | [] => by simp [jcostL]
  | [v] => by
      have h := jcost_le v
      simp only [jcostL, serJL, joinSep] at *
      omega
  | v :: w :: vs => by
      have h1 := jcost_le v
      have h2 := jcostL_le (w :: vs)
      have hj : (joinSep commaSpace (serJL (v :: w :: vs))).length =
          (serJ v).length + 2 + (joinSep commaSpace (serJL (w :: vs))).length := by
        rw [show serJL (v :: w :: vs) = serJ v :: serJL (w :: vs) from rfl]
        rw [joinSep_len_cons _ _ _ (by simp [serJL] : serJL (w :: vs) ≠ [])]
        rw [len_commaSpace]
      simp only [jcostL] at *
      omega

end

/-- JSON branch of the round trip. -/
theorem parse_serJ (t : PolicyValue) (h : rtOk t = true) :
    parse (String.mk (serJ t)) .JsonPolicy = .ok t := by
  have hb := jcost_le t
  have hv := jsonVal_ser t h (3 * (serJ t).length + 3) (by omega) [] [] (by simp)
  simp only [List.nil_append, List.append_nil] at hv
  simp only [parse]
  rw [hv]
  simp [skipWs_nil]

/- ===================== Human round trip ===================== -/

theorem kwBoundary_nil : kwBoundary [] = true := rfl
theorem kwBoundary_space (l : List Char) : kwBoundary ((' ') :: l) = true := rfl
theorem kwBoundary_rparen (l : List Char) : kwBoundary ((')') :: l) = true := rfl

theorem kwBoundary_glueAnd (vs : List PolicyValue) (rest : List Char)
    (h : kwBoundary rest = true) : kwBoundary (glueAnd vs rest) = true := by
  cases vs with
  | nil => exact h
  | cons v vs => exact kwBoundary_space _

theorem kwBoundary_glueOr (vs : List PolicyValue) (rest : List Char)
    (h : kwBoundary rest = true) : kwBoundary (glueOr vs rest) = true := by
  cases vs with
  | nil => exact h
  | cons v vs => exact kwBoundary_space _

theorem strip_and_rparen (l : List Char) :
    stripPrefixCs andChars (skipWs ((')') :: l)) = none := rfl
theorem strip_and_nil : stripPrefixCs andChars (skipWs []) = none := rfl
theorem strip_and_oChar (l : List Char) :
    stripPrefixCs andChars (('o') :: l) = none := rfl
theorem strip_or_rparen (l : List Char) :
    stripPrefixCs orChars (skipWs ((')') :: l)) = none := rfl
theorem strip_or_nil : stripPrefixCs orChars (skipWs []) = none := rfl

theorem skipWs_glueOr_cons (v : PolicyValue) (vs : List PolicyValue) (rest : List Char) :
    skipWs (glueOr (v :: vs) rest) =
      ('o') :: (('r') :: ((' ') :: (serH v ++ glueOr vs rest))) := rfl

theorem strip_and_glueOr (vs : List PolicyValue) (rest : List Char)
    (h : stripPrefixCs andChars (skipWs rest) = none) :
    stripPrefixCs andChars (skipWs (glueOr vs rest)) = none := by
  cases vs with
  | nil => exact h
  | cons v vs => rw [skipWs_glueOr_cons]; exact strip_and_oChar _

theorem atomH_ws (f : Nat) (pre l : List Char) (h : ∀ c ∈ pre, isWsChar c = true) :
    atomH (f + 1) (pre ++ l) = atomH (f + 1) l := by
  simp only [atomH, skipWs_pre pre l h]

theorem atomH_lparen (f : Nat) (l : List Char) :
    atomH (f + 1) (('(') :: l) =
      (exprH f l).bind fun p =>
      (expectC (')') (skipWs p.2)).bind fun cs2 => some (p.1, cs2) := rfl

theorem atomH_ident (f : Nat) (c : Char) (l : List Char) (hc : isIdentChar c = true) :
    atomH (f + 1) (c :: l) =
      (if (takeIdent (c :: l)).1.isEmpty then none
       else some (.String (String.mk (takeIdent (c :: l)).1), (takeIdent (c :: l)).2)) := by
  have hn1 : ¬ c = ('(') := fun he => by subst he; exact absurd hc (by decide)
  have hn2 : ¬ c = quoteC := fun he => by subst he; exact absurd hc (by decide)
  simp only [atomH, skipWs_not c l (ws_of_ident c hc)]
  split
  next cs1 heq => injection heq with h1 h2; exact absurd h1 hn1
  next cs1 heq => injection heq with h1 h2; exact absurd h1 hn2
  next => rfl

theorem termLoopH_and_step (f : Nat) (l : List Char) :
    termLoopH (f + 1) (andSep ++ l) =
      (atomH f ((' ') :: l)).bind fun p =>
      (termLoopH f p.2).bind fun q => some (p.1 :: q.1, q.2) := rfl

theorem termLoopH_stop (f : Nat) (cs : List Char)
    (h : stripPrefixCs andChars (skipWs cs) = none) :
    termLoopH (f + 1) cs = some ([], cs) := by
  simp only [termLoopH, h]

theorem exprLoopH_or_step (f : Nat) (l : List Char) :
    exprLoopH (f + 1) (orSep ++ l) =
      (termH f ((' ') :: l)).bind fun p =>
      (exprLoopH f p.2).bind fun q => some (p.1 :: q.1, q.2) := rfl

theorem exprLoopH_stop (f : Nat) (cs : List Char)
    (h : stripPrefixCs orChars (skipWs cs) = none) :
    exprLoopH (f + 1) cs = some ([], cs) := by
  simp only [exprLoopH, h]

theorem termH_eq (f : Nat) (cs : List Char) :
    termH (f + 1) cs =
      (atomH f cs).bind fun p =>
      (termLoopH f p.2).bind fun q =>
      some (if q.1.isEmpty then p.1
            else .Object .And (.Array (p.1 :: q.1)), q.2) := rfl

theorem exprH_eq (f : Nat) (cs : List Char) :
    exprH (f + 1) cs =
      (termH f cs).bind fun p =>
      (exprLoopH f p.2).bind fun q =>
      some (if q.1.isEmpty then p.1
            else .Object .Or (.Array (p.1 :: q.1)), q.2) := rfl

theorem joinSep_glueAnd : ∀ (vs : List PolicyValue) (v : PolicyValue) (rest : List Char),
    joinSep andSep (serHL (v :: vs)) ++ rest = serH v ++ glueAnd vs rest
  | [], v, rest => by
      rw [show serHL [v] = [serH v] from rfl]
      simp [joinSep, glueAnd]
  | w :: vs, v, rest => by
      rw [show glueAnd (w :: vs) rest = andSep ++ (serH w ++ glueAnd vs rest) from rfl,
        ← joinSep_glueAnd vs w rest]
      rw [show joinSep andSep (serHL (v :: w :: vs)) =
        serH v ++ andSep ++ joinSep andSep (serHL (w :: vs)) from rfl]
      simp [List.append_assoc]

theorem joinSep_glueOr : ∀ (vs : List PolicyValue) (v : PolicyValue) (rest : List Char),
    joinSep orSep (serHL (v :: vs)) ++ rest = serH v ++ glueOr vs rest
  | [], v, rest => by
      rw [show serHL [v] = [serH v] from rfl]
      simp [joinSep, glueOr]
  | w :: vs, v, rest => by
      rw [show glueOr (w :: vs) rest = orSep ++ (serH w ++ glueOr vs rest) from rfl,
        ← joinSep_glueOr vs w rest]
      rw [show joinSep orSep (serHL (v :: w :: vs)) =
        serH v ++ orSep ++ joinSep orSep (serHL (w :: vs)) from rfl]
      simp [List.append_assoc]

theorem hcost_pos : ∀ (t : PolicyValue), 1 ≤ hcost t
  | .Object t (.Array cs) => by simp [hcost]; omega
  | .Object t (.Object t2 o) => by simp [hcost]
  | .Object t (.String s) => by simp [hcost]
  | .Array a => by simp [hcost]
  | .String s => by simp [hcost]

theorem hcostL_pos : ∀ (vs : List PolicyValue), 1 ≤ hcostL vs
  | [] => by simp [hcostL]
  | v :: vs => by simp [hcostL]; omega


mutual

theorem atomH_ser : ∀ (t : PolicyValue), rtOk t = true → ∀ (f : Nat), hcost t ≤ f →
    ∀ (pre rest : List Char), (∀ c ∈ pre, isWsChar c = true) → kwBoundary rest = true →
    atomH f (pre ++ (serH t ++ rest)) = some (t, rest)
  | .String s, h, f, hf, pre, rest, hpre, hkw => by
      simp only [rtOk, Bool.and_eq_true, Bool.not_eq_true'] at h
      have hid : ∀ c ∈ s.data, isIdentChar c = true := by simpa using h.2
      obtain ⟨c, cs, hdata⟩ : ∃ c cs, s.data = c :: cs := by
        cases hd : s.data with
        | nil => exact absurd h.1 (by simp [hd])
        | cons c cs => exact ⟨c, cs, rfl⟩
      have hid' : ∀ d ∈ c :: cs, isIdentChar d = true := hdata ▸ hid
      have hc : isIdentChar c = true := hid' c (by simp)
      have hf1 : hcost (.String s) = 1 := rfl
      obtain ⟨f', rfl⟩ : ∃ f', f = f' + 1 := ⟨f - 1, by omega⟩
      rw [atomH_ws _ _ _ hpre]
      rw [show serH (.String s) = s.data from rfl, hdata]
      rw [show (c :: cs) ++ rest = c :: (cs ++ rest) from rfl]
      rw [atomH_ident f' c (cs ++ rest) hc]
      have ht : takeIdent (c :: (cs ++ rest)) = (c :: cs, rest) :=
        takeIdent_pre (c :: cs) rest hid' hkw
      rw [ht, ← hdata, string_mk_data, h.1]
      simp
  | .Object .And (.Array (c1 :: c2 :: cs)), h, f, hf, pre, rest, hpre, hkw => by
      simp only [rtOk, Bool.and_eq_true, decide_eq_true_eq] at h
      have hl' := h.2
      simp only [rtOkL, Bool.and_eq_true] at hl'
      have hl1 : rtOk c1 = true := hl'.1
      have hl2 : rtOkL (c2 :: cs) = true := by simp [rtOkL, hl'.2.1, hl'.2.2]
      simp only [hcost, hcostL] at hf
      obtain ⟨f4, rfl⟩ : ∃ f4, f = f4 + 1 + 1 + 1 + 1 := ⟨f - 4, by omega⟩
      rw [atomH_ws _ _ _ hpre]
      rw [show serH (.Object .And (.Array (c1 :: c2 :: cs))) ++ rest =
          ('(') :: (joinSep andSep (serHL (c1 :: c2 :: cs)) ++ ((')') :: rest)) from by
        rw [show serH (.Object .And (.Array (c1 :: c2 :: cs))) =
          ('(') :: (joinSep andSep (serHL (c1 :: c2 :: cs)) ++ [(')')]) from rfl]
        simp]
      rw [atomH_lparen, joinSep_glueAnd (c2 :: cs) c1 ((')') :: rest)]
      rw [exprH_eq, termH_eq]
      have hatom : atomH (f4 + 1) (serH c1 ++ glueAnd (c2 :: cs) ((')') :: rest)) =
          some (c1, glueAnd (c2 :: cs) ((')') :: rest)) := by
        have := atomH_ser c1 hl1 (f4 + 1) (by omega) []
          (glueAnd (c2 :: cs) ((')') :: rest)) (by simp)
          (kwBoundary_glueAnd (c2 :: cs) ((')') :: rest) (kwBoundary_rparen rest))
        simpa using this
      rw [hatom]
      simp only [Option.some_bind]
      rw [termLoopH_ser (c2 :: cs) hl2 (f4 + 1) (by simp only [hcostL]; omega)
        ((')') :: rest) (strip_and_rparen rest) (kwBoundary_rparen rest)]
      have hstop2 : exprLoopH (f4 + 2) ((')') :: rest) = some ([], (')') :: rest) :=
        exprLoopH_stop (f4 + 1) _ (strip_or_rparen rest)
      simp [hstop2, skipWs_rparen, expectC_pos]
  | .Object .Or (.Array (c1 :: c2 :: cs)), h, f, hf, pre, rest, hpre, hkw => by
      simp only [rtOk, Bool.and_eq_true, decide_eq_true_eq] at h
      have hl' := h.2
      simp only [rtOkL, Bool.and_eq_true] at hl'
      have hl1 : rtOk c1 = true := hl'.1
      have hl2 : rtOkL (c2 :: cs) = true := by simp [rtOkL, hl'.2.1, hl'.2.2]
      simp only [hcost, hcostL] at hf
      obtain ⟨f4, rfl⟩ : ∃ f4, f = f4 + 1 + 1 + 1 + 1 := ⟨f - 4, by omega⟩
      rw [atomH_ws _ _ _ hpre]
      rw [show serH (.Object .Or (.Array (c1 :: c2 :: cs))) ++ rest =
          ('(') :: (joinSep orSep (serHL (c1 :: c2 :: cs)) ++ ((')') :: rest)) from by
        rw [show serH (.Object .Or (.Array (c1 :: c2 :: cs))) =
          ('(') :: (joinSep orSep (serHL (c1 :: c2 :: cs)) ++ [(')')]) from rfl]
        simp]
      rw [atomH_lparen, joinSep_glueOr (c2 :: cs) c1 ((')') :: rest)]
      rw [exprH_eq, termH_eq]
      have hatom : atomH (f4 + 1) (serH c1 ++ glueOr (c2 :: cs) ((')') :: rest)) =
          some (c1, glueOr (c2 :: cs) ((')') :: rest)) := by
        have := atomH_ser c1 hl1 (f4 + 1) (by omega) []
          (glueOr (c2 :: cs) ((')') :: rest)) (by simp)
          (kwBoundary_glueOr (c2 :: cs) ((')') :: rest) (kwBoundary_rparen rest))
        simpa using this
      rw [hatom]
      simp only [Option.some_bind]
      rw [termLoopH_stop f4 _ (strip_and_glueOr (c2 :: cs) _ (strip_and_rparen rest))]
      have hrec : exprLoopH (f4 + 2) (glueOr (c2 :: cs) ((')') :: rest)) =
          some (c2 :: cs, (')') :: rest) :=
        exprLoopH_ser (c2 :: cs) hl2 (f4 + 1 + 1) (by simp only [hcostL]; omega)
          ((')') :: rest) (strip_and_rparen rest) (strip_or_rparen rest)
          (kwBoundary_rparen rest)
      simp [hrec, skipWs_rparen, expectC_pos]
  | .Object .And (.Array []), h, _, _, _, _, _, _ => by simp [rtOk] at h
  | .Object .And (.Array [c]), h, _, _, _, _, _, _ => by simp [rtOk] at h
  | .Object .Or (.Array []), h, _, _, _, _, _, _ => by simp [rtOk] at h
  | .Object .Or (.Array [c]), h, _, _, _, _, _, _ => by simp [rtOk] at h
  | .Object .And (.Object t o), h, _, _, _, _, _, _ => by simp [rtOk] at h
  | .Object .And (.String s), h, _, _, _, _, _, _ => by simp [rtOk] at h
  | .Object .Or (.Object t o), h, _, _, _, _, _, _ => by simp [rtOk] at h
  | .Object .Or (.String s), h, _, _, _, _, _, _ => by simp [rtOk] at h
  | .Object .Leaf o, h, _, _, _, _, _, _ => by simp [rtOk] at h
  | .Array a, h, _, _, _, _, _, _ => by simp [rtOk] at h

theorem termLoopH_ser : ∀ (vs : List PolicyValue), rtOkL vs = true → ∀ (f : Nat),
    hcostL vs ≤ f → ∀ (rest : List Char),
    stripPrefixCs andChars (skipWs rest) = none → kwBoundary rest = true →
    termLoopH f (glueAnd vs rest) = some (vs, rest)
  | [], _, f, hf, rest, hstop, _ => by
      obtain ⟨f', rfl⟩ : ∃ f', f = f' + 1 := ⟨f - 1, by simp [hcostL] at hf; omega⟩
      exact termLoopH_stop f' rest hstop
  | v :: vs, h, f, hf, rest, hstop, hkw => by
      simp only [rtOkL, Bool.and_eq_true] at h
      simp only [hcostL] at hf
      obtain ⟨f', rfl⟩ : ∃ f', f = f' + 1 := ⟨f - 1, by omega⟩
      rw [show glueAnd (v :: vs) rest = andSep ++ (serH v ++ glueAnd vs rest) from rfl]
      rw [termLoopH_and_step]
      have hatom : atomH f' ((' ') :: (serH v ++ glueAnd vs rest)) =
          some (v, glueAnd vs rest) := by
        have := atomH_ser v h.1 f' (by omega) [(' ')] _
          (by simp [isWsChar]) (kwBoundary_glueAnd vs rest hkw)
        simpa using this
      rw [hatom]
      simp only [Option.some_bind]
      rw [termLoopH_ser vs h.2 f' (by omega) rest hstop hkw]
      simp only [Option.some_bind]

theorem exprLoopH_ser : ∀ (vs : List PolicyValue), rtOkL vs = true → ∀ (f : Nat),
    hcostL vs ≤ f → ∀ (rest : List Char),
    stripPrefixCs andChars (skipWs rest) = none →
    stripPrefixCs orChars (skipWs rest) = none → kwBoundary rest = true →
    exprLoopH f (glueOr vs rest) = some (vs, rest)
  | [], _, f, hf, rest, _, hstopO, _ => by
      obtain ⟨f', rfl⟩ : ∃ f', f = f' + 1 := ⟨f - 1, by simp [hcostL] at hf; omega⟩
      exact exprLoopH_stop f' rest hstopO
  | v :: vs, h, f, hf, rest, hstopA, hstopO, hkw => by
      simp only [rtOkL, Bool.and_eq_true] at h
      simp only [hcostL] at hf
      have hp := hcost_pos v
      have hpl := hcostL_pos vs
      obtain ⟨f3, rfl⟩ : ∃ f3, f = f3 + 1 + 1 + 1 := ⟨f - 3, by omega⟩
      rw [show glueOr (v :: vs) rest = orSep ++ (serH v ++ glueOr vs rest) from rfl]
      rw [exprLoopH_or_step]
      rw [termH_eq]
      have hatom : atomH (f3 + 1) ((' ') :: (serH v ++ glueOr vs rest)) =
          some (v, glueOr vs rest) := by
        have := atomH_ser v h.1 (f3 + 1) (by omega) [(' ')] _
          (by simp [isWsChar]) (kwBoundary_glueOr vs rest hkw)
        simpa using this
      rw [hatom]
      simp only [Option.some_bind]
      rw [termLoopH_stop f3 _ (strip_and_glueOr vs _ hstopA)]
      have hrec : exprLoopH (f3 + 2) (glueOr vs rest) = some (vs, rest) :=
        exprLoopH_ser vs h.2 (f3 + 1 + 1) (by omega) rest hstopA hstopO hkw
      simp [hrec]

end

mutual

theorem hcost_le : ∀ (t : PolicyValue), rtOk t = true →
    hcost t + 2 ≤ 3 * (serH t).length
  | .String s, h => by
      simp only [rtOk, Bool.and_eq_true, Bool.not_eq_true'] at h
      have hne : s.data ≠ [] := by
        intro he; rw [he] at h; simp at h
      have hlen : 1 ≤ s.data.length := by
        cases hd : s.data with
        | nil => exact absurd hd hne
        | cons c cs => simp [hd]
      rw [show serH (.String s) = s.data from rfl]
      simp only [hcost]
      omega
  | .Object .And (.Array (c1 :: c2 :: cs)), h => by
      simp only [rtOk, Bool.and_eq_true, decide_eq_true_eq] at h
      have hl' := h.2
      simp only [rtOkL, Bool.and_eq_true] at hl'
      have hb1 := hcost_le c1 hl'.1
      have hb2 := hcostL_le (c2 :: cs) (by simp [rtOkL, hl'.2.1, hl'.2.2]) (by simp)
        andSep (by rw [len_andSep]; omega)
      simp only [hcostL] at hb2
      have hjoin : (joinSep andSep (serHL (c1 :: c2 :: cs))).length =
          (serH c1).length + 5 + (joinSep andSep (serHL (c2 :: cs))).length := by
        rw [show serHL (c1 :: c2 :: cs) = serH c1 :: serHL (c2 :: cs) from rfl]
        rw [joinSep_len_cons _ _ _
          (by rw [show serHL (c2 :: cs) = serH c2 :: serHL cs from rfl]; simp)]
        rw [len_andSep]
      rw [show serH (.Object .And (.Array (c1 :: c2 :: cs))) =
        ('(') :: (joinSep andSep (serHL (c1 :: c2 :: cs)) ++ [(')')]) from rfl]
      simp only [hcost, hcostL, List.length_cons, List.length_append,
        List.length_nil]
      omega
  | .Object .Or (.Array (c1 :: c2 :: cs)), h => by
      simp only [rtOk, Bool.and_eq_true, decide_eq_true_eq] at h
      have hl' := h.2
      simp only [rtOkL, Bool.and_eq_true] at hl'
      have hb1 := hcost_le c1 hl'.1
      have hb2 := hcostL_le (c2 :: cs) (by simp [rtOkL, hl'.2.1, hl'.2.2]) (by simp)
        orSep (by rw [len_orSep])
      simp only [hcostL] at hb2
      have hjoin : (joinSep orSep (serHL (c1 :: c2 :: cs))).length =
          (serH c1).length + 4 + (joinSep orSep (serHL (c2 :: cs))).length := by
        rw [show serHL (c1 :: c2 :: cs) = serH c1 :: serHL (c2 :: cs) from rfl]
        rw [joinSep_len_cons _ _ _
          (by rw [show serHL (c2 :: cs) = serH c2 :: serHL cs from rfl]; simp)]
        rw [len_orSep]
      rw [show serH (.Object .Or (.Array (c1 :: c2 :: cs))) =
        ('(') :: (joinSep orSep (serHL (c1 :: c2 :: cs)) ++ [(')')]) from rfl]
      simp only [hcost, hcostL, List.length_cons, List.length_append,
        List.length_nil]
      omega
  | .Object .And (.Array []), h => by simp [rtOk] at h
  | .Object .And (.Array [c]), h => by simp [rtOk] at h
  | .Object .Or (.Array []), h => by simp [rtOk] at h
  | .Object .Or (.Array [c]), h => by simp [rtOk] at h
  | .Object .And (.Object t o), h => by simp [rtOk] at h
  | .Object .And (.String s), h => by simp [rtOk] at h
  | .Object .Or (.Object t o), h => by simp [rtOk] at h
  | .Object .Or (.String s), h => by simp [rtOk] at h
  | .Object .Leaf o, h => by simp [rtOk] at h
  | .Array a, h => by simp [rtOk] at h

theorem hcostL_le : ∀ (vs : List PolicyValue), rtOkL vs = true → vs ≠ [] →
    ∀ (sep : List Char), 4 ≤ sep.length →
    hcostL vs ≤ 3 * (joinSep sep (serHL vs)).length + 1
  | [], _, hne, _, _ => absurd rfl hne
  | [v], h, _, sep, hsep => by
      simp only [rtOkL, Bool.and_eq_true] at h
      have hb := hcost_le v h.1
      rw [show serHL [v] = [serH v] from rfl]
      simp only [joinSep, hcostL]
      omega
  | v :: w :: vs, h, _, sep, hsep => by
      simp only [rtOkL, Bool.and_eq_true] at h
      have hb1 := hcost_le v h.1
      have hb2 := hcostL_le (w :: vs) (by simp [rtOkL, h.2.1, h.2.2]) (by simp)
        sep hsep
      have hjoin : (joinSep sep (serHL (v :: w :: vs))).length =
          (serH v).length + sep.length + (joinSep sep (serHL (w :: vs))).length := by
        rw [show serHL (v :: w :: vs) = serH v :: serHL (w :: vs) from rfl]
        exact joinSep_len_cons sep _ _
          (by rw [show serHL (w :: vs) = serH w :: serHL vs from rfl]; simp)
      simp only [hcostL] at *
      omega

end

/-- Human branch of the round trip. -/
theorem parse_serH (t : PolicyValue) (h : rtOk t = true) :
    parse (String.mk (serH t)) .HumanPolicy = .ok t := by
  have hb := hcost_le t h
  obtain ⟨f3, heq⟩ : ∃ f3, 3 * (serH t).length + 3 = f3 + 1 + 1 + 1 :=
    ⟨3 * (serH t).length, by omega⟩
  have hatom : atomH (f3 + 1) (serH t) = some (t, []) := by
    have := atomH_ser t h (f3 + 1) (by omega) [] [] (by simp) kwBoundary_nil
    simpa using this
  have hv : exprH (3 * (serH t).length + 3) (serH t) = some (t, []) := by
    rw [heq, exprH_eq, termH_eq, hatom]
    simp only [Option.some_bind]
    rw [termLoopH_stop f3 _ strip_and_nil]
    have hstop2 : exprLoopH (f3 + 2) ([] : List Char) = some ([], []) :=
      exprLoopH_stop (f3 + 1) _ strip_or_nil
    simp [hstop2]
  simp only [parse]
  rw [hv]
  simp [skipWs_nil]

/-- C8 counterexample: a Leaf-wrapper node serializes to the same JSON as its
inner leaf, so reparsing the JSON emission yields a structurally different
tree. -/
theorem serialize_roundtrip_cex :
    (serialize_policy (.Object .Leaf (.String ("A"))) .JsonPolicy none).bind
        (fun s => parse s .JsonPolicy) = .ok (.String ("A")) ∧
    PolicyValue.String ("A") ≠ .Object .Leaf (.String ("A")) := by
  decide

/-- C8 (amended): for every round-trip well-formed tree (leaves carry non-empty
identifier names, every inner node is an And/Or gate over at least two
well-formed children), parsing the JSON emission and parsing the human emission
both return the original tree. -/
theorem serialize_parse_roundtrip (t : PolicyValue) (h : rtOk t = true) :
    (serialize_policy t .JsonPolicy none).bind (fun s => parse s .JsonPolicy) =
      .ok t ∧
    (serialize_policy t .HumanPolicy none).bind (fun s => parse s .HumanPolicy) =
      .ok t := by
  constructor
  · simp only [serialize_policy, serChars_json t none, Outcome.bind]
    exact parse_serJ t h
  · simp only [serialize_policy, serChars_human t h none, Outcome.bind]
    exact parse_serH t h

/-- Witness for C8 on the policy "A" and "B". -/
theorem serialize_parse_roundtrip_witness :
    ((serialize_policy (.Object .And (.Array [.String ("A"), .String ("B")]))
        .JsonPolicy none).bind (fun s => parse s .JsonPolicy) =
      .ok (.Object .And (.Array [.String ("A"), .String ("B")])) ∧
    (serialize_policy (.Object .And (.Array [.String ("A"), .String ("B")]))
        .HumanPolicy none).bind (fun s => parse s .HumanPolicy) =
      .ok (.Object .And (.Array [.String ("A"), .String ("B")]))) :=
  serialize_parse_roundtrip (.Object .And (.Array [.String ("A"), .String ("B")]))
    (by decide)
